import Mathlib

/-!
# Verification of the `markdown-ast` event-stream restructuring engine

Shallow embedding of the core of the `markdown-ast` crate
(ConnorGray/Markdown repository):

* `src/crates/markdown-ast/src/unflatten.rs` — the event unflattener,
* `src/crates/markdown-ast/src/from_events.rs` — the AST builder,
* `src/crates/markdown-ast/src/to_events.rs` — the AST serializer,
* `src/crates/markdown-ast/src/lib.rs` — data model and pipeline glue.

Rust `panic!` / `todo!` / `assert!` / `.expect(..)` / `unreachable!` are
modelled as `Except.error`; `debug_assert_eq!` (active in the reference
debug/test profile) is modelled as a check that fails with an error.
`Vec<T>` is `List T`, `String`/`CowStr` are `String`, `u64` is `Nat`.
The event/tag model mirrors the `pulldown-cmark` 0.12 types that the
crate's exhaustive `match` statements enumerate.
-/

set_option maxHeartbeats 1600000

namespace MarkdownAst

/-- pulldown-cmark `Alignment` (table column alignment). -/
inductive Alignment where
  | None
  | Left
  | Center
  | Right
deriving DecidableEq, Repr

/-- pulldown-cmark `HeadingLevel`. -/
inductive HeadingLevel where
  | H1 | H2 | H3 | H4 | H5 | H6
deriving DecidableEq, Repr

/-- pulldown-cmark `LinkType`. -/
inductive LinkType where
  | Inline
  | Reference
  | ReferenceUnknown
  | Collapsed
  | CollapsedUnknown
  | Shortcut
  | ShortcutUnknown
  | Autolink
  | Email
deriving DecidableEq, Repr

/-- pulldown-cmark `BlockQuoteKind`. -/
inductive BlockQuoteKind where
  | Note | Tip | Important | Warning | Caution
deriving DecidableEq, Repr

/-- pulldown-cmark `MetadataBlockKind`. -/
inductive MetadataBlockKind where
  | YamlStyle
  | PlusStyle
deriving DecidableEq, Repr

/-- pulldown-cmark `CodeBlockKind` (as used inside `Tag::CodeBlock`). -/
inductive MdCodeBlockKind where
  | Indented
  | Fenced (info : String)
deriving DecidableEq, Repr

/-- pulldown-cmark `Tag`: the opening marker of a structural container.
The variant set is exactly the one enumerated by the exhaustive `match`
in `from_events.rs` (`unwrap_text`). -/
inductive Tag where
  | Paragraph
  | Heading (level : HeadingLevel) (id : Option String)
      (classes : List String) (attrs : List (String × Option String))
  | BlockQuote (kind : Option BlockQuoteKind)
  | CodeBlock (kind : MdCodeBlockKind)
  | HtmlBlock
  | List (start : Option Nat)
  | Item
  | FootnoteDefinition (label : String)
  | Table (alignments : List Alignment)
  | TableHead
  | TableRow
  | TableCell
  | Emphasis
  | Strong
  | Strikethrough
  | Link (link_type : LinkType) (dest_url : String) (title : String) (id : String)
  | Image (link_type : LinkType) (dest_url : String) (title : String) (id : String)
  | MetadataBlock (kind : MetadataBlockKind)
deriving DecidableEq, Repr

/-- pulldown-cmark `TagEnd`: the closing marker form of a `Tag`. -/
inductive TagEnd where
  | Paragraph
  | Heading (level : HeadingLevel)
  | BlockQuote (kind : Option BlockQuoteKind)
  | CodeBlock
  | HtmlBlock
  | List (ordered : Bool)
  | Item
  | FootnoteDefinition
  | Table
  | TableHead
  | TableRow
  | TableCell
  | Emphasis
  | Strong
  | Strikethrough
  | Link
  | Image
  | MetadataBlock (kind : MetadataBlockKind)
deriving DecidableEq, Repr

/-- pulldown-cmark `Tag::to_end()`: the closing form of an opening tag. -/
def Tag.to_end : Tag → TagEnd
  | .Paragraph => .Paragraph
  | .Heading level _ _ _ => .Heading level
  | .BlockQuote kind => .BlockQuote kind
  | .CodeBlock _ => .CodeBlock
  | .HtmlBlock => .HtmlBlock
  | .List start => .List start.isSome
  | .Item => .Item
  | .FootnoteDefinition _ => .FootnoteDefinition
  | .Table _ => .Table
  | .TableHead => .TableHead
  | .TableRow => .TableRow
  | .TableCell => .TableCell
  | .Emphasis => .Emphasis
  | .Strong => .Strong
  | .Strikethrough => .Strikethrough
  | .Link _ _ _ _ => .Link
  | .Image _ _ _ _ => .Image
  | .MetadataBlock kind => .MetadataBlock kind

/-- pulldown-cmark `Event`: one unit of the flat tokenizer output stream. -/
inductive Event where
  | Start (tag : Tag)
  | End (tag : TagEnd)
  | Text (s : String)
  | Code (s : String)
  | InlineMath (s : String)
  | DisplayMath (s : String)
  | Html (s : String)
  | InlineHtml (s : String)
  | FootnoteReference (s : String)
  | SoftBreak
  | HardBreak
  | Rule
  | TaskListMarker (checked : Bool)
deriving DecidableEq, Repr

/-- `unflatten.rs` `UnflattenedEvent`: intermediate tree node. The Rust
constructor `UnflattenedEvent::Event` is named `Atomic` here because a
constructor may not share the name of its own field's type in Lean;
it can never hold `Event::Start` or `Event::End`. -/
inductive UnflattenedEvent where
  | Atomic (event : Event)
  | Nested (tag : Tag) (events : List UnflattenedEvent)
deriving Repr

/-- `lib.rs` `CodeBlockKind` (the crate's own copy of the kind). -/
inductive CodeBlockKind where
  | Fenced (info : String)
  | Indented
deriving DecidableEq, Repr

/-- `CodeBlockKind::from_pulldown_cmark`. -/
def CodeBlockKind.from_pulldown_cmark : MdCodeBlockKind → CodeBlockKind
  | .Indented => .Indented
  | .Fenced info => .Fenced info

/-- `CodeBlockKind::to_pulldown_cmark`. -/
def CodeBlockKind.to_pulldown_cmark : CodeBlockKind → MdCodeBlockKind
  | .Fenced info => .Fenced info
  | .Indented => .Indented

mutual
/-- `lib.rs` `Block`: a block-level AST node. `Inlines` and `ListItem` are
Rust newtype wrappers around vectors; they are inlined as plain lists. -/
inductive Block where
  | Paragraph (inlines : List Inline)
  | List (items : List ListItem)
  | Heading (level : HeadingLevel) (inlines : List Inline)
  | CodeBlock (kind : CodeBlockKind) (code : String)
  | BlockQuote (kind : Option BlockQuoteKind) (blocks : List Block)
  | Table (alignments : List Alignment) (headers : List (List Inline))
      (rows : List (List (List Inline)))
  | Rule

/-- `lib.rs` `ListItem`: wraps the blocks of one list item. -/
inductive ListItem where
  | mk (blocks : List Block)

/-- `lib.rs` `Inline`: a span-level AST node (with the `Image` variant the
split `from_events.rs`/`to_events.rs` modules handle). -/
inductive Inline where
  | Text (s : String)
  | Emphasis (inlines : List Inline)
  | Strong (inlines : List Inline)
  | Strikethrough (inlines : List Inline)
  | Code (s : String)
  | Link (link_type : LinkType) (dest_url : String) (title : String)
      (id : String) (content_text : List Inline)
  | Image (link_type : LinkType) (dest_url : String) (title : String)
      (id : String) (image_description : List Inline)
  | SoftBreak
  | HardBreak
end

/-- The blocks of a `ListItem`. -/
def ListItem.blocks : ListItem → List Block
  | .mk blocks => blocks

/-! ## Event unflattener (`unflatten.rs`)

The Rust `Unflattener` keeps a root accumulator and a `Vec` stack of
`(Tag, Vec<UnflattenedEvent>)` frames. The stack is modelled as a list
whose head is the top (the end of the Rust `Vec`). Panics (`expect`,
`assert!`) and the `debug_assert_eq!` tag check (active in the crate's
debug/test profile) are modelled as `Except.error`. -/

structure Unflattener where
  root : List UnflattenedEvent
  nested : List (Tag × List UnflattenedEvent)
deriving Repr

/-- `Unflattener::seq` composed with `Vec::push`: append one event to the
top stack frame's accumulator, or to the root if the stack is empty. -/
def Unflattener.seqPush (u : Unflattener) (e : UnflattenedEvent) : Unflattener :=
  match u.nested with
  | [] => { u with root := u.root ++ [e] }
  | (tag, seq) :: rest => { u with nested := (tag, seq ++ [e]) :: rest }

/-- `Unflattener::handle_event`. -/
def Unflattener.handle_event (u : Unflattener) (event : Event) :
    Except String Unflattener :=
  match event with
  | .Start tag => .ok { u with nested := (tag, []) :: u.nested }
  | .End tag =>
    match u.nested with
    | [] => .error "expected nested events"
    | (tag2, inner) :: rest =>
      if tag = tag2.to_end then
        .ok (Unflattener.seqPush { u with nested := rest }
          (.Nested tag2 inner))
      else
        .error "mismatched End tag"
  | event => .ok (u.seqPush (.Atomic event))

/-- `Unflattener::finish`: the stack must be empty. -/
def Unflattener.finish (u : Unflattener) : Except String (List UnflattenedEvent) :=
  match u.nested with
  | [] => .ok u.root
  | _ :: _ => .error "unterminated Start event"

/-- The event loop of `parse_markdown_to_unflattened_events`. -/
def runEvents : Unflattener → List Event → Except String Unflattener
  | u, [] => .ok u
  | u, e :: rest =>
    match u.handle_event e with
    | .error msg => .error msg
    | .ok u => runEvents u rest

/-- `parse_markdown_to_unflattened_events`. -/
def parse_markdown_to_unflattened_events (event_stream : List Event) :
    Except String (List UnflattenedEvent) :=
  match runEvents { root := [], nested := [] } event_stream with
  | .error msg => .error msg
  | .ok u => u.finish

/-! ### Ghost flattening function and well-formedness

`flatten` maps an unflattened tree back to the flat event sequence it came
from: each `Nested tag children` contributes its `Start(tag)` marker, the
flattened children strictly between, and the matching `End(tag.to_end)`.
A well-formed event sequence (correctly paired markers) is exactly a
`flattenList` image of a well-formed tree (one with no `Start`/`End`
inside `Atomic`). -/

mutual
def UnflattenedEvent.flatten : UnflattenedEvent → List Event
  | .Atomic e => [e]
  | .Nested tag events => .Start tag :: (flattenList events ++ [.End tag.to_end])

def flattenList : List UnflattenedEvent → List Event
  | [] => []
  | e :: rest => e.flatten ++ flattenList rest
end

mutual
/-- No `Start`/`End` marker hides inside an `Atomic` node (the invariant
documented on `UnflattenedEvent::Event`). -/
def UnflattenedEvent.wf : UnflattenedEvent → Bool
  | .Atomic (.Start _) => false
  | .Atomic (.End _) => false
  | .Atomic _ => true
  | .Nested _ events => wfList events

def wfList : List UnflattenedEvent → Bool
  | [] => true
  | e :: rest => e.wf && wfList rest
end

/-- Push a whole sequence of events via `seqPush`. -/
def Unflattener.seqPushAll : Unflattener → List UnflattenedEvent → Unflattener
  | u, [] => u
  | u, e :: rest => (u.seqPush e).seqPushAll rest

theorem runEvents_append (a b : List Event) :
    ∀ u : Unflattener, runEvents u (a ++ b) =
      match runEvents u a with
      | .error msg => .error msg
      | .ok u => runEvents u b := by
  induction a with
  | nil => intro u; simp [runEvents]
  | cons e rest ih =>
    intro u
    simp only [List.cons_append, runEvents]
    cases u.handle_event e with
    | error msg => rfl
    | ok u => exact ih u

theorem seqPushAll_root (ts : List UnflattenedEvent) :
    ∀ r, Unflattener.seqPushAll { root := r, nested := [] } ts =
      { root := r ++ ts, nested := [] } := by
  induction ts with
  | nil => intro r; simp [Unflattener.seqPushAll]
  | cons e rest ih =>
    intro r
    simp [Unflattener.seqPushAll, Unflattener.seqPush, ih]

theorem seqPushAll_nested (ts : List UnflattenedEvent) :
    ∀ r t acc stk, Unflattener.seqPushAll
        { root := r, nested := (t, acc) :: stk } ts =
      { root := r, nested := (t, acc ++ ts) :: stk } := by
  induction ts with
  | nil => intro r t acc stk; simp [Unflattener.seqPushAll]
  | cons e rest ih =>
    intro r t acc stk
    simp [Unflattener.seqPushAll, Unflattener.seqPush, ih]

/-- Processing the flattening of a well-formed tree list from any state
appends the trees to the current innermost accumulator and succeeds.
(Strong induction on `sizeOf`, bounded by the fuel `n`.) -/
theorem runEvents_flattenList_aux (n : Nat) :
    ∀ ts : List UnflattenedEvent, sizeOf ts ≤ n → wfList ts = true →
      ∀ u : Unflattener, runEvents u (flattenList ts) = .ok (u.seqPushAll ts) := by
  induction n with
  | zero =>
    intro ts hsize _ _
    cases ts <;> simp_all
  | succ n ih =>
    intro ts hsize hwf u
    match ts with
    | [] => simp [flattenList, runEvents, Unflattener.seqPushAll]
    | .Atomic ev :: rest =>
      have hsz : sizeOf rest ≤ n := by
        have := List.cons.sizeOf_spec (UnflattenedEvent.Atomic ev) rest
        omega
      have hwf2 : wfList rest = true := by
        simp [wfList] at hwf; exact hwf.2
      have hwf1 : (UnflattenedEvent.Atomic ev).wf = true := by
        simp [wfList] at hwf
        simp [hwf.1]
      simp only [flattenList, UnflattenedEvent.flatten, List.cons_append,
        List.nil_append, runEvents]
      have hstep : u.handle_event ev = .ok (u.seqPush (.Atomic ev)) := by
        cases ev <;> simp_all [UnflattenedEvent.wf, Unflattener.handle_event]
      rw [hstep]
      show runEvents (u.seqPush (.Atomic ev)) (flattenList rest) =
        .ok ((u.seqPush (.Atomic ev)).seqPushAll rest)
      exact ih rest hsz hwf2 _
    | .Nested tag children :: rest =>
      have hsz1 : sizeOf children ≤ n := by
        have h1 := List.cons.sizeOf_spec (UnflattenedEvent.Nested tag children) rest
        have h2 : sizeOf (UnflattenedEvent.Nested tag children) =
            1 + sizeOf tag + sizeOf children := by simp
        have h3 : sizeOf rest ≥ 0 := Nat.zero_le _
        omega
      have hsz2 : sizeOf rest ≤ n := by
        have h1 := List.cons.sizeOf_spec (UnflattenedEvent.Nested tag children) rest
        omega
      have hwfs : wfList children = true ∧ wfList rest = true := by
        simp [wfList, UnflattenedEvent.wf] at hwf
        exact hwf
      simp only [flattenList, UnflattenedEvent.flatten, List.cons_append]
      simp only [runEvents, Unflattener.handle_event]
      rw [List.append_assoc, runEvents_append]
      obtain ⟨r, stk⟩ := u
      rw [ih children hsz1 hwfs.1 { root := r, nested := (tag, []) :: stk }]
      rw [seqPushAll_nested]
      simp only [List.nil_append, runEvents, Unflattener.handle_event]
      rw [if_pos trivial]
      show runEvents (Unflattener.seqPush { root := r, nested := stk }
          (.Nested tag children)) (flattenList rest) =
        .ok ((Unflattener.seqPush { root := r, nested := stk }
          (.Nested tag children)).seqPushAll rest)
      exact ih rest hsz2 hwfs.2 _

/-- Instantiated form without the fuel bound. -/
theorem runEvents_flattenList (ts : List UnflattenedEvent)
    (hwf : wfList ts = true) (u : Unflattener) :
    runEvents u (flattenList ts) = .ok (u.seqPushAll ts) :=
  runEvents_flattenList_aux (sizeOf ts) ts (Nat.le_refl _) hwf u

/-! ## AST serializer (`to_events.rs`)

`wrap(tag, events, action)` pushes `Start(tag)`, runs the action, then
pushes `End(tag.to_end())`; since the Rust code only appends to the
output vector, it is modelled by pure functions returning the emitted
segment. The per-item loop of `Block::List` carries the
`list_items.len() == 1` condition of the single-item special case as the
`single` flag. -/

/-- `to_events.rs` `wrap`: emitted segment of a tag-delimited region. -/
def wrapEvents (tag : Tag) (inner : List Event) : List Event :=
  .Start tag :: (inner ++ [.End tag.to_end])

mutual
/-- `block_to_events` (the emitted segment for one block). -/
def block_to_events : Block → List Event
  | .Paragraph inlines => wrapEvents .Paragraph (inlines_to_events inlines)
  | .List list_items =>
    -- first_item_number is always None (list numbering gap).
    wrapEvents (.List none)
      (list_items_to_events (list_items.length = 1) list_items)
  | .Heading level inlines =>
    wrapEvents (.Heading level none [] []) (inlines_to_events inlines)
  | .CodeBlock kind code =>
    wrapEvents (.CodeBlock kind.to_pulldown_cmark) [.Text code]
  | .BlockQuote kind blocks =>
    wrapEvents (.BlockQuote kind) (blocks_to_events blocks)
  | .Table alignments headers rows =>
    wrapEvents (.Table alignments)
      (wrapEvents .TableHead (table_cells_to_events headers) ++
        table_rows_to_events rows)
  | .Rule => [.Rule]

/-- The `for block in blocks` loop of `ast_to_events` / `Block::BlockQuote`. -/
def blocks_to_events : List Block → List Event
  | [] => []
  | block :: rest => block_to_events block ++ blocks_to_events rest

/-- The `for ListItem(list_item_blocks) in list_items` loop; `single` is
`list_items.len() == 1` of the enclosing list. -/
def list_items_to_events (single : Prop) [Decidable single] :
    List ListItem → List Event
  | [] => []
  | .mk list_item_blocks :: rest =>
    wrapEvents .Item
      (match list_item_blocks with
        | [Block.Paragraph inlines] =>
          if single then inlines_to_events inlines
          else blocks_to_events list_item_blocks
        | _ => blocks_to_events list_item_blocks) ++
      list_items_to_events single rest

/-- `inlines_to_events`. -/
def inlines_to_events : List Inline → List Event
  | [] => []
  | .Text s :: rest => .Text s :: inlines_to_events rest
  | .Emphasis inlines :: rest =>
    wrapEvents .Emphasis (inlines_to_events inlines) ++ inlines_to_events rest
  | .Strong inlines :: rest =>
    wrapEvents .Strong (inlines_to_events inlines) ++ inlines_to_events rest
  | .Strikethrough inlines :: rest =>
    wrapEvents .Strikethrough (inlines_to_events inlines) ++
      inlines_to_events rest
  | .Code code :: rest => .Code code :: inlines_to_events rest
  | .Link link_type dest_url title id content_text :: rest =>
    wrapEvents (.Link link_type dest_url title id)
      (inlines_to_events content_text) ++ inlines_to_events rest
  | .Image link_type dest_url title id image_description :: rest =>
    wrapEvents (.Image link_type dest_url title id)
      (inlines_to_events image_description) ++ inlines_to_events rest
  | .SoftBreak :: rest => .SoftBreak :: inlines_to_events rest
  | .HardBreak :: rest => .HardBreak :: inlines_to_events rest

/-- One table-cell wrapped segment per header/row cell. -/
def table_cells_to_events : List (List Inline) → List Event
  | [] => []
  | cell :: rest =>
    wrapEvents .TableCell (inlines_to_events cell) ++ table_cells_to_events rest

/-- One table-row wrapped segment per row. -/
def table_rows_to_events : List (List (List Inline)) → List Event
  | [] => []
  | row :: rest =>
    wrapEvents .TableRow (table_cells_to_events row) ++ table_rows_to_events rest
end

/-- `lib.rs` `ast_to_events`: concatenated emission of all blocks. -/
def ast_to_events (blocks : List Block) : List Event :=
  blocks_to_events blocks

/-! ## AST builder (`from_events.rs`)

`todo!`, `panic!`, `unreachable!` and failed `assert!` are `Except.error`.
The `for` loop of `ast_events_to_ast` with its `complete` / `text_spans`
accumulators becomes `astGo`; the flush-on-boundary prologue of each
iteration lives in `astGo`, the per-event `match` dispatch in
`astDispatch`. `unwrap_table_cell` is inlined structurally at its two call
sites (table header cells and row cells) so the recursion stays on
subterms. -/

/-- `from_events.rs` `is_inline`: classification of an unflattened event
as inline-compatible (`ok true`), block-breaking (`ok false`), or not yet
implemented / unreachable (`error`). -/
def is_inline : UnflattenedEvent → Except String Bool
  | .Atomic event =>
    match event with
    | .Start _ | .End _ => .error "unreachable"
    | .Text _ => .ok true
    | .Code _ => .ok true
    | .SoftBreak => .ok true
    | .HardBreak => .ok true
    | .Html _ => .ok false
    | .InlineHtml _ => .error "not yet implemented"
    | .Rule => .ok false
    | .TaskListMarker _ => .ok false
    | .FootnoteReference _ => .ok true
    | .InlineMath _ => .error "not yet implemented"
    | .DisplayMath _ => .error "not yet implemented"
  | .Nested tag _ =>
    match tag with
    | .Emphasis | .Strong | .Strikethrough => .ok true
    | .Heading _ _ _ _ => .ok false
    | .Paragraph => .ok false
    | .List _ => .ok false
    | .Item => .ok false
    | .CodeBlock _ => .ok false
    | .BlockQuote _ => .ok false
    | .Table _ => .ok false
    | .TableHead | .TableRow => .error "unreachable"
    | .Link _ _ _ _ => .ok true
    | _ => .error "handle tag"

/-- `from_events.rs` `text_to_string`: flatten code-block inline content
to plain text (text passes through, soft break becomes a space, hard
break becomes a newline, anything else is fatal). -/
def text_to_string : List Inline → Except String String
  | [] => .ok ""
  | .Text text :: rest =>
    match text_to_string rest with
    | .error msg => .error msg
    | .ok s => .ok (text ++ s)
  | .SoftBreak :: rest =>
    match text_to_string rest with
    | .error msg => .error msg
    | .ok s => .ok (" " ++ s)
  | .HardBreak :: rest =>
    match text_to_string rest with
    | .error msg => .error msg
    | .ok s => .ok ("\n" ++ s)
  | _ :: _ => .error "handle span"

mutual
/-- `from_events.rs` `ast_events_to_ast`. -/
def ast_events_to_ast (events : List UnflattenedEvent) :
    Except String (List Block) :=
  astGo events [] []
termination_by (sizeOf events, 2)

/-- The event loop of `ast_events_to_ast`: `complete` and `text_spans`
are the two accumulators; the final non-empty `text_spans` is flushed as
one last `Paragraph`. -/
def astGo (events : List UnflattenedEvent) (complete : List Block)
    (text_spans : List Inline) : Except String (List Block) :=
  match events with
  | [] =>
    .ok (if text_spans.isEmpty then complete
      else complete ++ [Block.Paragraph text_spans])
  | event :: rest =>
    match is_inline event with
    | .error msg => .error msg
    | .ok inl =>
      if !inl && !text_spans.isEmpty then
        astDispatch event rest (complete ++ [Block.Paragraph text_spans]) []
      else
        astDispatch event rest complete text_spans
termination_by (sizeOf events, 1)

/-- The per-event `match` dispatch in the loop body of
`ast_events_to_ast`. -/
def astDispatch (event : UnflattenedEvent) (rest : List UnflattenedEvent)
    (complete : List Block) (text_spans : List Inline) :
    Except String (List Block) :=
  match event with
  | .Atomic event =>
    match event with
    | .Start _ | .End _ =>
      .error "illegal Event Start or End in UnflattenedEvent Event"
    | .Text text => astGo rest complete (text_spans ++ [.Text text])
    | .Code code => astGo rest complete (text_spans ++ [.Code code])
    | .SoftBreak => astGo rest complete (text_spans ++ [.SoftBreak])
    | .HardBreak => astGo rest complete (text_spans ++ [.HardBreak])
    | .Html _ => .error "unhandled inline HTML"
    | .InlineHtml _ => .error "not yet implemented"
    | .Rule => astGo rest (complete ++ [Block.Rule]) text_spans
    | .TaskListMarker _ => .error "not yet implemented"
    | .FootnoteReference _ => .error "not yet implemented"
    | .InlineMath _ => .error "not yet implemented"
    | .DisplayMath _ => .error "not yet implemented"
  | .Nested tag events =>
    match tag with
    | .Emphasis =>
      match unwrap_text events with
      | .error msg => .error msg
      | .ok inlines => astGo rest complete (text_spans ++ [.Emphasis inlines])
    | .Strong =>
      match unwrap_text events with
      | .error msg => .error msg
      | .ok inlines => astGo rest complete (text_spans ++ [.Strong inlines])
    | .Strikethrough =>
      match unwrap_text events with
      | .error msg => .error msg
      | .ok inlines =>
        astGo rest complete (text_spans ++ [.Strikethrough inlines])
    | .Link link_type dest_url title id =>
      match unwrap_text events with
      | .error msg => .error msg
      | .ok content_text =>
        astGo rest complete
          (text_spans ++ [.Link link_type dest_url title id content_text])
    | .Heading level _ _ _ =>
      match unwrap_text events with
      | .error msg => .error msg
      | .ok inlines =>
        astGo rest (complete ++ [Block.Heading level inlines]) text_spans
    | .Paragraph =>
      match unwrap_text events with
      | .error msg => .error msg
      | .ok inlines => astGo rest complete (text_spans ++ inlines)
    | .List _start =>
      match build_list_items events with
      | .error msg => .error msg
      | .ok items => astGo rest (complete ++ [Block.List items]) text_spans
    | .Item =>
      match ast_events_to_ast events with
      | .error msg => .error msg
      | .ok blocks => astGo rest (complete ++ blocks) text_spans
    | .CodeBlock kind =>
      match unwrap_text events with
      | .error msg => .error msg
      | .ok inlines =>
        match text_to_string inlines with
        | .error msg => .error msg
        | .ok code_text =>
          astGo rest
            (complete ++ [Block.CodeBlock
              (CodeBlockKind.from_pulldown_cmark kind) code_text])
            text_spans
    | .BlockQuote kind =>
      match ast_events_to_ast events with
      | .error msg => .error msg
      | .ok blocks =>
        astGo rest (complete ++ [Block.BlockQuote kind blocks]) text_spans
    | .Table alignments =>
      match events with
      | [] => .error "called Option unwrap on a None value"
      | .Atomic _ :: _ => .error "explicit panic"
      | .Nested htag header_events :: row_events =>
        match htag with
        | .TableHead =>
          match build_table_cells header_events with
          | .error msg => .error msg
          | .ok headers =>
            match build_table_rows row_events with
            | .error msg => .error msg
            | .ok rows =>
              astGo rest
                (complete ++ [Block.Table alignments headers rows])
                text_spans
        | _ => .error "assertion failed"
    | _ => .error "handle tag"
termination_by (sizeOf event + sizeOf rest, 0)

/-- `from_events.rs` `unwrap_text` (inline-only resolver). -/
def unwrap_text (events : List UnflattenedEvent) :
    Except String (List Inline) :=
  unwrapGo events []
termination_by (sizeOf events, 1)

/-- The event loop of `unwrap_text` with its `text_spans` accumulator. -/
def unwrapGo (events : List UnflattenedEvent) (text_spans : List Inline) :
    Except String (List Inline) :=
  match events with
  | [] => .ok text_spans
  | event :: rest =>
    match event with
    | .Atomic event =>
      match event with
      | .Start _ | .End _ => .error "unreachable"
      | .Text text => unwrapGo rest (text_spans ++ [.Text text])
      | .Code code => unwrapGo rest (text_spans ++ [.Code code])
      | .SoftBreak => unwrapGo rest (text_spans ++ [.SoftBreak])
      | .HardBreak => unwrapGo rest (text_spans ++ [.HardBreak])
      | .Html _ => .error "skipping inline HTML"
      | .InlineHtml _ => .error "not yet implemented"
      | .TaskListMarker _ => .error "not yet implemented"
      | .Rule => .error "not yet implemented"
      | .FootnoteReference _ => .error "not yet implemented"
      | .InlineMath _ => .error "not yet implemented"
      | .DisplayMath _ => .error "not yet implemented"
    | .Nested tag events =>
      match tag with
      | .Emphasis =>
        match unwrap_text events with
        | .error msg => .error msg
        | .ok inlines => unwrapGo rest (text_spans ++ [.Emphasis inlines])
      | .Strong =>
        match unwrap_text events with
        | .error msg => .error msg
        | .ok inlines => unwrapGo rest (text_spans ++ [.Strong inlines])
      | .Strikethrough =>
        match unwrap_text events with
        | .error msg => .error msg
        | .ok inlines =>
          unwrapGo rest (text_spans ++ [.Strikethrough inlines])
      | .Paragraph =>
        -- A separate paragraph inside inline context: insert two hard
        -- breaks, unless there is no existing text content.
        match unwrap_text events with
        | .error msg => .error msg
        | .ok inlines =>
          unwrapGo rest
            ((if text_spans.isEmpty then text_spans
              else text_spans ++ [.HardBreak, .HardBreak]) ++ inlines)
      | .Link link_type dest_url title id =>
        match unwrap_text events with
        | .error msg => .error msg
        | .ok content_text =>
          unwrapGo rest
            (text_spans ++ [.Link link_type dest_url title id content_text])
      | .Image link_type dest_url title id =>
        match unwrap_text events with
        | .error msg => .error msg
        | .ok image_description =>
          unwrapGo rest
            (text_spans ++
              [.Image link_type dest_url title id image_description])
      | .Heading _ _ _ _ | .BlockQuote _ | .CodeBlock _ | .HtmlBlock
      | .List _ | .Item | .FootnoteDefinition _ | .Table _
      | .TableHead | .TableRow | .TableCell | .MetadataBlock _ =>
        .error "unexpected non-inline element inside inlines parse context"
termination_by (sizeOf events, 0)

/-- The `for event in events` item loop of the `Tag::List` arm: every
child must be a `Nested Item`. -/
def build_list_items (events : List UnflattenedEvent) :
    Except String (List ListItem) :=
  match events with
  | [] => .ok []
  | .Nested .Item item_events :: rest =>
    match ast_events_to_ast item_events with
    | .error msg => .error msg
    | .ok item_blocks =>
      match build_list_items rest with
      | .error msg => .error msg
      | .ok items => .ok (.mk item_blocks :: items)
  | _ :: _ => .error "handle list element"
termination_by (sizeOf events, 2)

/-- The table-cell loops of the `Tag::Table` arm (`unwrap_table_cell`
followed by `unwrap_text` on each cell). -/
def build_table_cells (events : List UnflattenedEvent) :
    Except String (List (List Inline)) :=
  match events with
  | [] => .ok []
  | .Nested .TableCell cell_events :: rest =>
    match unwrap_text cell_events with
    | .error msg => .error msg
    | .ok cell_text =>
      match build_table_cells rest with
      | .error msg => .error msg
      | .ok cells => .ok (cell_text :: cells)
  | .Nested _ _ :: _ => .error "expected to get Tag TableCell"
  | .Atomic _ :: _ => .error "explicit panic"
termination_by (sizeOf events, 2)

/-- The row loop of the `Tag::Table` arm: every remaining child must be a
`Nested TableRow` of table cells. -/
def build_table_rows (events : List UnflattenedEvent) :
    Except String (List (List (List Inline))) :=
  match events with
  | [] => .ok []
  | .Nested .TableRow row_events :: rest =>
    match build_table_cells row_events with
    | .error msg => .error msg
    | .ok row =>
      match build_table_rows rest with
      | .error msg => .error msg
      | .ok rows => .ok (row :: rows)
  | .Nested _ _ :: _ => .error "assertion failed"
  | .Atomic _ :: _ => .error "explicit panic"
termination_by (sizeOf events, 2)
end

/-- `lib.rs` `events_to_ast`: unflatten, then build the AST. -/
def events_to_ast (events : List Event) : Except String (List Block) :=
  match parse_markdown_to_unflattened_events events with
  | .error msg => .error msg
  | .ok unflattened => ast_events_to_ast unflattened

/-! ## Claims about the unflattener (C3, C4) -/

/-- **C3**: on a well-formed event sequence (every `Start` matched by a
later `End` whose form is the start tag's closing form — exactly the
sequences of shape `flattenList ts` for a tree list `ts` with no marker
inside an `Atomic` node), the unflattener returns the root sequence in
which each `Nested tag children` node's children are exactly the events
emitted strictly between that node's `Start(tag)`/`End(tag)` pair, atomic
events attached to the innermost open frame in input order; and an input
whose trailing `Start(t)` is never terminated is a fatal error. -/
theorem unflatten_children_exact (ts ts2 : List UnflattenedEvent) (t : Tag)
    (hwf : wfList ts = true) (hwf2 : wfList ts2 = true) :
    parse_markdown_to_unflattened_events (flattenList ts) = .ok ts ∧
    (∃ msg, parse_markdown_to_unflattened_events
      (flattenList ts ++ Event.Start t :: flattenList ts2) = .error msg) := by
  constructor
  · unfold parse_markdown_to_unflattened_events
    rw [runEvents_flattenList ts hwf]
    rw [seqPushAll_root]
    simp [Unflattener.finish]
  · refine ⟨"unterminated Start event", ?_⟩
    unfold parse_markdown_to_unflattened_events
    rw [runEvents_append]
    rw [runEvents_flattenList ts hwf]
    rw [seqPushAll_root]
    simp only [List.nil_append, runEvents, Unflattener.handle_event]
    rw [runEvents_flattenList ts2 hwf2]
    rw [seqPushAll_nested]
    simp [Unflattener.finish]

/-- Witness for C3 at a concrete input. -/
theorem unflatten_children_exact_witness :
    parse_markdown_to_unflattened_events
      (flattenList [.Nested .Paragraph [.Atomic (.Text "a")],
        .Atomic (.Rule)]) =
      .ok [.Nested .Paragraph [.Atomic (.Text "a")], .Atomic (.Rule)] ∧
    (∃ msg, parse_markdown_to_unflattened_events
      (flattenList [.Nested .Paragraph [.Atomic (.Text "a")],
        .Atomic (.Rule)] ++
        Event.Start .Item :: flattenList []) = .error msg) :=
  unflatten_children_exact
    [.Nested .Paragraph [.Atomic (.Text "a")], .Atomic (.Rule)] [] .Item
    (by simp [wfList, UnflattenedEvent.wf])
    (by simp [wfList])

/-- **C4**: when the unflattener sees an `End(e)` event it pops the top
stack frame; if the popped tag's closing form differs from `e`, or if the
stack is empty, processing aborts with a fatal error (no tree is
produced), whatever events follow. -/
theorem end_event_mismatch_fatal (t : Tag) (e : TagEnd)
    (ts : List UnflattenedEvent) (rest rest2 : List Event)
    (hwf : wfList ts = true) (hne : e ≠ t.to_end) :
    (∃ msg, parse_markdown_to_unflattened_events
      (flattenList ts ++ Event.Start t :: Event.End e :: rest) =
        .error msg) ∧
    (∃ msg, parse_markdown_to_unflattened_events
      (flattenList ts ++ Event.End e :: rest2) = .error msg) := by
  constructor
  · refine ⟨"mismatched End tag", ?_⟩
    unfold parse_markdown_to_unflattened_events
    rw [runEvents_append]
    rw [runEvents_flattenList ts hwf]
    rw [seqPushAll_root]
    simp [runEvents, Unflattener.handle_event, hne]
  · refine ⟨"expected nested events", ?_⟩
    unfold parse_markdown_to_unflattened_events
    rw [runEvents_append]
    rw [runEvents_flattenList ts hwf]
    rw [seqPushAll_root]
    simp [runEvents, Unflattener.handle_event]

/-- Witness for C4 at a concrete input. -/
theorem end_event_mismatch_fatal_witness :
    (∃ msg, parse_markdown_to_unflattened_events
      (flattenList [] ++ Event.Start .Emphasis ::
        Event.End .Strong :: [Event.Rule]) = .error msg) ∧
    (∃ msg, parse_markdown_to_unflattened_events
      (flattenList [] ++ Event.End .Strong :: []) = .error msg) :=
  end_event_mismatch_fatal .Emphasis .Strong [] [Event.Rule] []
    (by simp [wfList]) (by simp [Tag.to_end])

/-! ## Claims about the AST builder (C5, C6, C9) -/

/-- **C5**: in the builder's loop, a block-breaking node (classified not
inline-compatible) arriving while the pending inline accumulator is
non-empty makes the loop emit exactly one `Paragraph` holding the pending
content immediately before the node's own dispatch — the continuation is
the dispatch from the flushed state, so never zero and never a duplicate —
and at the end of the level a non-empty pending accumulator is flushed as
exactly one final `Paragraph`. -/
theorem flush_on_boundary (event : UnflattenedEvent)
    (rest : List UnflattenedEvent) (complete : List Block)
    (text_spans : List Inline) (hspans : text_spans ≠ [])
    (hbreak : is_inline event = .ok false) :
    astGo (event :: rest) complete text_spans =
      astDispatch event rest (complete ++ [Block.Paragraph text_spans]) [] ∧
    astGo (event :: rest) complete text_spans =
      astGo (event :: rest) (complete ++ [Block.Paragraph text_spans]) [] ∧
    astGo [] complete text_spans =
      .ok (complete ++ [Block.Paragraph text_spans]) := by
  have hne : text_spans.isEmpty = false := by
    cases text_spans
    · simp at hspans
    · simp
  refine ⟨?_, ?_, ?_⟩
  · simp [astGo, hbreak, hne]
  · simp [astGo, hbreak, hne]
  · simp [astGo, hne]

/-- Witness for C5 at a concrete input. -/
theorem flush_on_boundary_witness :
    astGo [.Atomic .Rule] [] [.Text "x"] =
      astDispatch (.Atomic .Rule) [] ([] ++ [Block.Paragraph [.Text "x"]]) [] ∧
    astGo [.Atomic .Rule] [] [.Text "x"] =
      astGo [.Atomic .Rule] ([] ++ [Block.Paragraph [.Text "x"]]) [] ∧
    astGo [] [] [.Text "x"] = .ok ([] ++ [Block.Paragraph [.Text "x"]]) :=
  flush_on_boundary (.Atomic .Rule) [] [] [.Text "x"] (by simp)
    (by simp [is_inline])

/-- Spec-side classifier for C6: the inline kinds a code block may
contain. -/
def codeTextual : Inline → Bool
  | .Text _ => true
  | .SoftBreak => true
  | .HardBreak => true
  | _ => false

/-- Spec-side mapping for C6: the text each permitted inline contributes. -/
def codePiece : Inline → String
  | .Text t => t
  | .SoftBreak => " "
  | .HardBreak => "\n"
  | _ => ""

/-- **C6**: flattening resolved code-block inline content maps each
`Text` to its characters unchanged, each `SoftBreak` to a single space,
each `HardBreak` to a newline, concatenated in order; any other inline
kind is a fatal error. -/
theorem text_to_string_flattening (spans : List Inline) :
    (spans.all codeTextual = true →
      text_to_string spans =
        .ok ((spans.map codePiece).foldr (fun a b => a ++ b) "")) ∧
    (spans.all codeTextual = false →
      ∃ msg, text_to_string spans = .error msg) := by
  induction spans with
  | nil => simp [text_to_string]
  | cons s rest ih =>
    constructor
    · intro h
      simp only [List.all_cons, Bool.and_eq_true] at h
      cases s <;>
        simp_all [text_to_string, codeTextual, codePiece]
    · intro h
      simp only [List.all_cons, Bool.and_eq_false_iff] at h
      cases s with
      | Text t =>
        obtain ⟨msg, hmsg⟩ := ih.2 (by
          rcases h with h | h
          · simp [codeTextual] at h
          · exact h)
        exact ⟨msg, by simp [text_to_string, hmsg]⟩
      | SoftBreak =>
        obtain ⟨msg, hmsg⟩ := ih.2 (by
          rcases h with h | h
          · simp [codeTextual] at h
          · exact h)
        exact ⟨msg, by simp [text_to_string, hmsg]⟩
      | HardBreak =>
        obtain ⟨msg, hmsg⟩ := ih.2 (by
          rcases h with h | h
          · simp [codeTextual] at h
          · exact h)
        exact ⟨msg, by simp [text_to_string, hmsg]⟩
      | Emphasis i => exact ⟨"handle span", by simp [text_to_string]⟩
      | Strong i => exact ⟨"handle span", by simp [text_to_string]⟩
      | Strikethrough i => exact ⟨"handle span", by simp [text_to_string]⟩
      | Code c => exact ⟨"handle span", by simp [text_to_string]⟩
      | Link a b c d e => exact ⟨"handle span", by simp [text_to_string]⟩
      | Image a b c d e => exact ⟨"handle span", by simp [text_to_string]⟩

/-- Witness for C6 at concrete inputs (one textual list, one containing a
code span, which is not permitted inside a code block). -/
theorem text_to_string_flattening_witness :
    ([Inline.Text "ab", Inline.SoftBreak, Inline.HardBreak].all codeTextual
        = true →
      text_to_string [Inline.Text "ab", Inline.SoftBreak, Inline.HardBreak] =
        .ok (([Inline.Text "ab", Inline.SoftBreak,
          Inline.HardBreak].map codePiece).foldr (fun a b => a ++ b) "")) ∧
    ([Inline.Code "x"].all codeTextual = false →
      ∃ msg, text_to_string [Inline.Code "x"] = .error msg) :=
  ⟨(text_to_string_flattening
      [Inline.Text "ab", Inline.SoftBreak, Inline.HardBreak]).1,
    (text_to_string_flattening [Inline.Code "x"]).2⟩

/-- **C9**: a nested `Image` node in inline content has its children
resolved recursively as the image description, and pushes an
`Inline.Image` that carries the tag's `link_type`, `dest_url`, `title`
and `id` together with that description. -/
theorem image_inline_resolved (link_type : LinkType)
    (dest_url title id : String) (children rest : List UnflattenedEvent)
    (text_spans desc : List Inline)
    (h : unwrap_text children = .ok desc) :
    unwrapGo (.Nested (.Image link_type dest_url title id) children :: rest)
        text_spans =
      unwrapGo rest
        (text_spans ++ [.Image link_type dest_url title id desc]) ∧
    unwrap_text [.Nested (.Image link_type dest_url title id) children] =
      .ok [.Image link_type dest_url title id desc] := by
  constructor
  · simp [unwrapGo, h]
  · simp [unwrap_text, unwrapGo, h]

/-- Witness for C9 at a concrete input. -/
theorem image_inline_resolved_witness :
    unwrapGo [.Nested (.Image .Inline "url" "ttl" "id")
        [.Atomic (.Text "d")]] [] =
      unwrapGo [] ([] ++ [.Image .Inline "url" "ttl" "id" [.Text "d"]]) ∧
    unwrap_text [.Nested (.Image .Inline "url" "ttl" "id")
        [.Atomic (.Text "d")]] =
      .ok [.Image .Inline "url" "ttl" "id" [.Text "d"]] :=
  image_inline_resolved .Inline "url" "ttl" "id" [.Atomic (.Text "d")] []
    [] [.Text "d"] (by simp [unwrap_text, unwrapGo])

/-! ## Claim about the serializer's list special case (C8) -/

/-- When the single-item condition does not hold, every item is emitted
with normal wrapping. -/
theorem list_items_to_events_not_single (single : Prop) [Decidable single]
    (hns : ¬ single) :
    ∀ items : List ListItem, list_items_to_events single items =
      items.flatMap fun it => wrapEvents .Item (blocks_to_events it.blocks) := by
  intro items
  induction items with
  | nil => simp [list_items_to_events]
  | cons it rest ih =>
    obtain ⟨blocks⟩ := it
    match blocks with
    | [] => simp [list_items_to_events, ih, ListItem.blocks]
    | [Block.Paragraph p] =>
      simp [list_items_to_events, ih, ListItem.blocks, if_neg hns]
    | [Block.List l] => simp [list_items_to_events, ih, ListItem.blocks]
    | [Block.Heading a b] => simp [list_items_to_events, ih, ListItem.blocks]
    | [Block.CodeBlock a b] => simp [list_items_to_events, ih, ListItem.blocks]
    | [Block.BlockQuote a b] => simp [list_items_to_events, ih, ListItem.blocks]
    | [Block.Table a b c] => simp [list_items_to_events, ih, ListItem.blocks]
    | [Block.Rule] => simp [list_items_to_events, ih, ListItem.blocks]
    | b1 :: b2 :: bs => simp [list_items_to_events, ih, ListItem.blocks]

/-- A single item whose blocks are not exactly one paragraph is emitted
with normal wrapping even when the single-item condition holds. -/
theorem list_items_to_events_single_not_para (single : Prop)
    [Decidable single] (it : ListItem)
    (h : ∀ q, it ≠ ListItem.mk [Block.Paragraph q]) :
    list_items_to_events single [it] =
      wrapEvents .Item (blocks_to_events it.blocks) := by
  obtain ⟨blocks⟩ := it
  match blocks with
  | [] => simp [list_items_to_events, ListItem.blocks]
  | [Block.Paragraph p] => exact absurd rfl (h p)
  | [Block.List l] => simp [list_items_to_events, ListItem.blocks]
  | [Block.Heading a b] => simp [list_items_to_events, ListItem.blocks]
  | [Block.CodeBlock a b] => simp [list_items_to_events, ListItem.blocks]
  | [Block.BlockQuote a b] => simp [list_items_to_events, ListItem.blocks]
  | [Block.Table a b c] => simp [list_items_to_events, ListItem.blocks]
  | [Block.Rule] => simp [list_items_to_events, ListItem.blocks]
  | b1 :: b2 :: bs => simp [list_items_to_events, ListItem.blocks]

/-- **C8**: serializing a `Block::List` emits the paragraph's inline
events directly inside the `Item` wrapper, with no intervening
`Paragraph` start/end pair, exactly when the list has one item whose sole
block is a `Paragraph`; in every other case each block of each item is
emitted with its normal wrapping inside its `Item` pair. -/
theorem list_single_item_special_case (p : List Inline)
    (items : List ListItem)
    (h : ∀ q, items ≠ [ListItem.mk [Block.Paragraph q]]) :
    block_to_events (Block.List [ListItem.mk [Block.Paragraph p]]) =
      wrapEvents (.List none) (wrapEvents .Item (inlines_to_events p)) ∧
    block_to_events (Block.List items) =
      wrapEvents (.List none)
        (items.flatMap fun it =>
          wrapEvents .Item (blocks_to_events it.blocks)) := by
  constructor
  · simp [block_to_events, list_items_to_events]
  · rw [block_to_events]
    match items with
    | [] => simp [list_items_to_events]
    | [it] =>
      rw [list_items_to_events_single_not_para _ it (fun q hq => h q (by rw [hq]))]
      simp [wrapEvents]
    | it1 :: it2 :: rest =>
      rw [list_items_to_events_not_single _ (by simp)]

/-- Witness for C8 at concrete inputs. -/
theorem list_single_item_special_case_witness :
    block_to_events (Block.List [ListItem.mk [Block.Paragraph [.Text "a"]]]) =
      wrapEvents (.List none)
        (wrapEvents .Item (inlines_to_events [.Text "a"])) ∧
    block_to_events (Block.List [ListItem.mk [Block.Rule]]) =
      wrapEvents (.List none)
        ([ListItem.mk [Block.Rule]].flatMap fun it =>
          wrapEvents .Item (blocks_to_events it.blocks)) :=
  ⟨(list_single_item_special_case [.Text "a"] [ListItem.mk [Block.Rule]]
      (by intro q h; simp at h)).1,
    (list_single_item_special_case [.Text "a"] [ListItem.mk [Block.Rule]]
      (by intro q h; simp at h)).2⟩

/-! ## Roundtrip development (C1, C2)

Ghost functions mapping an AST directly to the unflattened tree that the
unflattener recovers from the serializer's event stream. `blocks_unfl` is
a specification device: its correctness is established by the lemmas
`flatten_unfl_eq_serialize` (its flattening is the serializer's output)
and the `astGo_*` lemmas (the builder maps it back to the AST). -/

mutual
/-- One unflattened node per inline, mirroring `inlines_to_events`. -/
def inlines_unfl : List Inline → List UnflattenedEvent
  | [] => []
  | .Text s :: rest => .Atomic (.Text s) :: inlines_unfl rest
  | .Emphasis ins :: rest =>
    .Nested .Emphasis (inlines_unfl ins) :: inlines_unfl rest
  | .Strong ins :: rest =>
    .Nested .Strong (inlines_unfl ins) :: inlines_unfl rest
  | .Strikethrough ins :: rest =>
    .Nested .Strikethrough (inlines_unfl ins) :: inlines_unfl rest
  | .Code s :: rest => .Atomic (.Code s) :: inlines_unfl rest
  | .Link lt url title id ct :: rest =>
    .Nested (.Link lt url title id) (inlines_unfl ct) :: inlines_unfl rest
  | .Image lt url title id desc :: rest =>
    .Nested (.Image lt url title id) (inlines_unfl desc) :: inlines_unfl rest
  | .SoftBreak :: rest => .Atomic .SoftBreak :: inlines_unfl rest
  | .HardBreak :: rest => .Atomic .HardBreak :: inlines_unfl rest
termination_by ins => (sizeOf ins, 0)

/-- One unflattened node per block, mirroring `block_to_events`. -/
def block_unfl : Block → UnflattenedEvent
  | .Paragraph p => .Nested .Paragraph (inlines_unfl p)
  | .List items => .Nested (.List none) (list_children_unfl items)
  | .Heading level p => .Nested (.Heading level none [] []) (inlines_unfl p)
  | .CodeBlock kind code =>
    .Nested (.CodeBlock kind.to_pulldown_cmark) [.Atomic (.Text code)]
  | .BlockQuote kind blocks => .Nested (.BlockQuote kind) (blocks_unfl blocks)
  | .Table alignments headers rows =>
    .Nested (.Table alignments)
      (.Nested .TableHead (cells_unfl headers) :: rows_unfl rows)
  | .Rule => .Atomic .Rule
termination_by b => (sizeOf b, 0)

def blocks_unfl : List Block → List UnflattenedEvent
  | [] => []
  | b :: rest => block_unfl b :: blocks_unfl rest
termination_by bs => (sizeOf bs, 0)

/-- The children of a list node: the single-item sole-paragraph special
case drops the `Paragraph` wrapper. -/
def list_children_unfl (items : List ListItem) : List UnflattenedEvent :=
  match items with
  | [.mk [Block.Paragraph p]] => [.Nested .Item (inlines_unfl p)]
  | items => items_unfl items
termination_by (sizeOf items, 1)

def items_unfl : List ListItem → List UnflattenedEvent
  | [] => []
  | .mk blocks :: rest =>
    .Nested .Item (blocks_unfl blocks) :: items_unfl rest
termination_by items => (sizeOf items, 0)

def cells_unfl : List (List Inline) → List UnflattenedEvent
  | [] => []
  | cell :: rest => .Nested .TableCell (inlines_unfl cell) :: cells_unfl rest
termination_by cells => (sizeOf cells, 0)

def rows_unfl : List (List (List Inline)) → List UnflattenedEvent
  | [] => []
  | row :: rest => .Nested .TableRow (cells_unfl row) :: rows_unfl rest
termination_by rows => (sizeOf rows, 0)
end

/-- Spec-side: flushing a pending accumulator yields one `Paragraph` when
non-empty, nothing otherwise. -/
def flushP (spans : List Inline) : List Block :=
  if spans.isEmpty then [] else [Block.Paragraph spans]

/-- Spec-side: `true` unless the inline is an `Image` (the builder's
block-level `is_inline` has no `Image` arm, so a top-level image in the
single-item-list special case is fatal on rebuild). -/
def inline_not_image : Inline → Bool
  | .Image _ _ _ _ _ => false
  | _ => true

/-- Spec-side: when the item list is a single item whose sole block is a
paragraph (the serializer's special case), that paragraph must have no
top-level image. -/
def single_para_guard : List ListItem → Bool
  | [.mk [Block.Paragraph p]] => p.all inline_not_image
  | _ => true

mutual
/-- Roundtrip safety: every `Paragraph` non-empty, and the sole paragraph
of a single-item list free of top-level images. -/
def rt_safe_block : Block → Bool
  | .Paragraph p => !p.isEmpty
  | .List items => rt_safe_items items && single_para_guard items
  | .Heading _ _ => true
  | .CodeBlock _ _ => true
  | .BlockQuote _ blocks => rt_safe_blocks blocks
  | .Table _ _ _ => true
  | .Rule => true
termination_by b => sizeOf b

def rt_safe_items : List ListItem → Bool
  | [] => true
  | .mk blocks :: rest => rt_safe_blocks blocks && rt_safe_items rest
termination_by items => sizeOf items

def rt_safe_blocks : List Block → Bool
  | [] => true
  | b :: rest => rt_safe_block b && rt_safe_blocks rest
termination_by bs => sizeOf bs
end

/-- The inline resolver `unwrap_text` inverts `inlines_unfl` exactly,
from any accumulator state (fuel-bounded strong induction). -/
theorem unwrapGo_unfl_aux (n : Nat) :
    ∀ (ins : List Inline) (spans : List Inline), sizeOf ins ≤ n →
      unwrapGo (inlines_unfl ins) spans = .ok (spans ++ ins) := by
  induction n with
  | zero =>
    intro ins spans h
    cases ins with
    | nil => simp [inlines_unfl, unwrapGo]
    | cons i rest => simp at h
  | succ n ih =>
    intro ins spans h
    match ins with
    | [] => simp [inlines_unfl, unwrapGo]
    | .Text s :: rest =>
      have h2 : sizeOf rest ≤ n := by simp at h; omega
      simp only [inlines_unfl, unwrapGo]
      rw [ih rest _ h2]
      simp
    | .Code s :: rest =>
      have h2 : sizeOf rest ≤ n := by simp at h; omega
      simp only [inlines_unfl, unwrapGo]
      rw [ih rest _ h2]
      simp
    | .SoftBreak :: rest =>
      have h2 : sizeOf rest ≤ n := by simp at h; omega
      simp only [inlines_unfl, unwrapGo]
      rw [ih rest _ h2]
      simp
    | .HardBreak :: rest =>
      have h2 : sizeOf rest ≤ n := by simp at h; omega
      simp only [inlines_unfl, unwrapGo]
      rw [ih rest _ h2]
      simp
    | .Emphasis ins2 :: rest =>
      have h1 : sizeOf ins2 ≤ n := by simp at h; omega
      have h2 : sizeOf rest ≤ n := by simp at h; omega
      simp only [inlines_unfl, unwrapGo, unwrap_text]
      rw [ih ins2 [] h1]
      simp only [List.nil_append]
      rw [ih rest _ h2]
      simp
    | .Strong ins2 :: rest =>
      have h1 : sizeOf ins2 ≤ n := by simp at h; omega
      have h2 : sizeOf rest ≤ n := by simp at h; omega
      simp only [inlines_unfl, unwrapGo, unwrap_text]
      rw [ih ins2 [] h1]
      simp only [List.nil_append]
      rw [ih rest _ h2]
      simp
    | .Strikethrough ins2 :: rest =>
      have h1 : sizeOf ins2 ≤ n := by simp at h; omega
      have h2 : sizeOf rest ≤ n := by simp at h; omega
      simp only [inlines_unfl, unwrapGo, unwrap_text]
      rw [ih ins2 [] h1]
      simp only [List.nil_append]
      rw [ih rest _ h2]
      simp
    | .Link lt url title id ct :: rest =>
      have h1 : sizeOf ct ≤ n := by simp at h; omega
      have h2 : sizeOf rest ≤ n := by simp at h; omega
      simp only [inlines_unfl, unwrapGo, unwrap_text]
      rw [ih ct [] h1]
      simp only [List.nil_append]
      rw [ih rest _ h2]
      simp
    | .Image lt url title id desc :: rest =>
      have h1 : sizeOf desc ≤ n := by simp at h; omega
      have h2 : sizeOf rest ≤ n := by simp at h; omega
      simp only [inlines_unfl, unwrapGo, unwrap_text]
      rw [ih desc [] h1]
      simp only [List.nil_append]
      rw [ih rest _ h2]
      simp

/-- Unfueled form: `unwrap_text` inverts `inlines_unfl`. -/
theorem unwrap_text_unfl (ins : List Inline) :
    unwrap_text (inlines_unfl ins) = .ok ins := by
  rw [unwrap_text, unwrapGo_unfl_aux (sizeOf ins) ins [] (Nat.le_refl _)]
  simp

/-- The ghost trees carry no `Start`/`End` marker inside `Atomic` nodes
(fuel-bounded strong induction over the mutual AST structure). -/
theorem wf_unfl_aux (n : Nat) :
    (∀ ins : List Inline, sizeOf ins ≤ n →
      wfList (inlines_unfl ins) = true) ∧
    (∀ b : Block, sizeOf b ≤ n → (block_unfl b).wf = true) ∧
    (∀ bs : List Block, sizeOf bs ≤ n → wfList (blocks_unfl bs) = true) ∧
    (∀ items : List ListItem, sizeOf items ≤ n →
      wfList (items_unfl items) = true) ∧
    (∀ items : List ListItem, sizeOf items ≤ n →
      wfList (list_children_unfl items) = true) ∧
    (∀ cells : List (List Inline), sizeOf cells ≤ n →
      wfList (cells_unfl cells) = true) ∧
    (∀ rows : List (List (List Inline)), sizeOf rows ≤ n →
      wfList (rows_unfl rows) = true) := by
  induction n with
  | zero =>
    refine ⟨?_, ?_, ?_, ?_, ?_, ?_, ?_⟩ <;>
      · intro x hx
        exfalso
        cases x <;> simp at hx
  | succ n ih =>
    obtain ⟨ih1, ih2, ih3, ih4, ih5, ih6, ih7⟩ := ih
    have H1 : ∀ ins : List Inline, sizeOf ins ≤ n + 1 →
        wfList (inlines_unfl ins) = true := by
      intro ins h
      match ins with
      | [] => simp [inlines_unfl, wfList]
      | .Text s :: rest =>
        simp [inlines_unfl, wfList, UnflattenedEvent.wf,
          ih1 rest (by simp at h; omega)]
      | .Code s :: rest =>
        simp [inlines_unfl, wfList, UnflattenedEvent.wf,
          ih1 rest (by simp at h; omega)]
      | .SoftBreak :: rest =>
        simp [inlines_unfl, wfList, UnflattenedEvent.wf,
          ih1 rest (by simp at h; omega)]
      | .HardBreak :: rest =>
        simp [inlines_unfl, wfList, UnflattenedEvent.wf,
          ih1 rest (by simp at h; omega)]
      | .Emphasis ins2 :: rest =>
        simp [inlines_unfl, wfList, UnflattenedEvent.wf,
          ih1 ins2 (by simp at h; omega), ih1 rest (by simp at h; omega)]
      | .Strong ins2 :: rest =>
        simp [inlines_unfl, wfList, UnflattenedEvent.wf,
          ih1 ins2 (by simp at h; omega), ih1 rest (by simp at h; omega)]
      | .Strikethrough ins2 :: rest =>
        simp [inlines_unfl, wfList, UnflattenedEvent.wf,
          ih1 ins2 (by simp at h; omega), ih1 rest (by simp at h; omega)]
      | .Link lt url title id ct :: rest =>
        simp [inlines_unfl, wfList, UnflattenedEvent.wf,
          ih1 ct (by simp at h; omega), ih1 rest (by simp at h; omega)]
      | .Image lt url title id desc :: rest =>
        simp [inlines_unfl, wfList, UnflattenedEvent.wf,
          ih1 desc (by simp at h; omega), ih1 rest (by simp at h; omega)]
    have H4 : ∀ items : List ListItem, sizeOf items ≤ n + 1 →
        wfList (items_unfl items) = true := by
      intro items h
      match items with
      | [] => simp [items_unfl, wfList]
      | .mk blocks :: rest =>
        simp [items_unfl, wfList, UnflattenedEvent.wf,
          ih3 blocks (by simp at h; omega), ih4 rest (by simp at h; omega)]
    have H5 : ∀ items : List ListItem, sizeOf items ≤ n + 1 →
        wfList (list_children_unfl items) = true := by
      intro items h
      match items with
      | [.mk [Block.Paragraph p]] =>
        simp [list_children_unfl, wfList, UnflattenedEvent.wf,
          H1 p (by simp at h; omega)]
      | [] => simp [list_children_unfl, items_unfl, wfList]
      | [.mk []] =>
        simp only [list_children_unfl]
        exact H4 _ h
      | [.mk [Block.List l]] =>
        simp only [list_children_unfl]
        exact H4 _ h
      | [.mk [Block.Heading a b]] =>
        simp only [list_children_unfl]
        exact H4 _ h
      | [.mk [Block.CodeBlock a b]] =>
        simp only [list_children_unfl]
        exact H4 _ h
      | [.mk [Block.BlockQuote a b]] =>
        simp only [list_children_unfl]
        exact H4 _ h
      | [.mk [Block.Table a b c]] =>
        simp only [list_children_unfl]
        exact H4 _ h
      | [.mk [Block.Rule]] =>
        simp only [list_children_unfl]
        exact H4 _ h
      | [.mk (b1 :: b2 :: bs)] =>
        simp only [list_children_unfl]
        exact H4 _ h
      | it1 :: it2 :: rest =>
        simp only [list_children_unfl]
        exact H4 _ h
    have H6 : ∀ cells : List (List Inline), sizeOf cells ≤ n + 1 →
        wfList (cells_unfl cells) = true := by
      intro cells h
      match cells with
      | [] => simp [cells_unfl, wfList]
      | cell :: rest =>
        simp [cells_unfl, wfList, UnflattenedEvent.wf,
          ih1 cell (by simp at h; omega), ih6 rest (by simp at h; omega)]
    have H7 : ∀ rows : List (List (List Inline)), sizeOf rows ≤ n + 1 →
        wfList (rows_unfl rows) = true := by
      intro rows h
      match rows with
      | [] => simp [rows_unfl, wfList]
      | row :: rest =>
        simp [rows_unfl, wfList, UnflattenedEvent.wf,
          ih6 row (by simp at h; omega), ih7 rest (by simp at h; omega)]
    have H2 : ∀ b : Block, sizeOf b ≤ n + 1 → (block_unfl b).wf = true := by
      intro b h
      match b with
      | .Paragraph p =>
        simp [block_unfl, UnflattenedEvent.wf, ih1 p (by simp at h; omega)]
      | .List items =>
        simp [block_unfl, UnflattenedEvent.wf, ih5 items (by simp at h; omega)]
      | .Heading level p =>
        simp [block_unfl, UnflattenedEvent.wf, ih1 p (by simp at h; omega)]
      | .CodeBlock kind code =>
        simp [block_unfl, UnflattenedEvent.wf, wfList]
      | .BlockQuote kind blocks =>
        simp [block_unfl, UnflattenedEvent.wf,
          ih3 blocks (by simp at h; omega)]
      | .Table a headers rows =>
        simp [block_unfl, UnflattenedEvent.wf, wfList,
          ih6 headers (by simp at h; omega), ih7 rows (by simp at h; omega)]
      | .Rule => simp [block_unfl, UnflattenedEvent.wf]
    have H3 : ∀ bs : List Block, sizeOf bs ≤ n + 1 →
        wfList (blocks_unfl bs) = true := by
      intro bs h
      match bs with
      | [] => simp [blocks_unfl, wfList]
      | b :: rest =>
        simp [blocks_unfl, wfList, H2 b (by simp at h; omega),
          ih3 rest (by simp at h; omega)]
    exact ⟨H1, H2, H3, H4, H5, H6, H7⟩

/-- Unfueled form for block lists. -/
theorem wf_blocks_unfl (bs : List Block) :
    wfList (blocks_unfl bs) = true :=
  (wf_unfl_aux (sizeOf bs)).2.2.1 bs (Nat.le_refl _)

/-- Flattening the ghost trees reproduces the serializer's event stream
(fuel-bounded strong induction over the mutual AST structure). -/
theorem flatten_unfl_aux (n : Nat) :
    (∀ ins : List Inline, sizeOf ins ≤ n →
      flattenList (inlines_unfl ins) = inlines_to_events ins) ∧
    (∀ b : Block, sizeOf b ≤ n →
      (block_unfl b).flatten = block_to_events b) ∧
    (∀ bs : List Block, sizeOf bs ≤ n →
      flattenList (blocks_unfl bs) = blocks_to_events bs) ∧
    (∀ items : List ListItem, sizeOf items ≤ n →
      flattenList (items_unfl items) =
        items.flatMap fun it => wrapEvents .Item (blocks_to_events it.blocks)) ∧
    (∀ items : List ListItem, sizeOf items ≤ n →
      flattenList (list_children_unfl items) =
        list_items_to_events (items.length = 1) items) ∧
    (∀ cells : List (List Inline), sizeOf cells ≤ n →
      flattenList (cells_unfl cells) = table_cells_to_events cells) ∧
    (∀ rows : List (List (List Inline)), sizeOf rows ≤ n →
      flattenList (rows_unfl rows) = table_rows_to_events rows) := by
  induction n with
  | zero =>
    refine ⟨?_, ?_, ?_, ?_, ?_, ?_, ?_⟩ <;>
      · intro x hx
        exfalso
        cases x <;> simp at hx
  | succ n ih =>
    obtain ⟨ih1, ih2, ih3, ih4, ih5, ih6, ih7⟩ := ih
    have H1 : ∀ ins : List Inline, sizeOf ins ≤ n + 1 →
        flattenList (inlines_unfl ins) = inlines_to_events ins := by
      intro ins h
      match ins with
      | [] => simp [inlines_unfl, flattenList, inlines_to_events]
      | .Text s :: rest =>
        simp [inlines_unfl, flattenList, UnflattenedEvent.flatten,
          inlines_to_events, ih1 rest (by simp at h; omega)]
      | .Code s :: rest =>
        simp [inlines_unfl, flattenList, UnflattenedEvent.flatten,
          inlines_to_events, ih1 rest (by simp at h; omega)]
      | .SoftBreak :: rest =>
        simp [inlines_unfl, flattenList, UnflattenedEvent.flatten,
          inlines_to_events, ih1 rest (by simp at h; omega)]
      | .HardBreak :: rest =>
        simp [inlines_unfl, flattenList, UnflattenedEvent.flatten,
          inlines_to_events, ih1 rest (by simp at h; omega)]
      | .Emphasis ins2 :: rest =>
        simp [inlines_unfl, flattenList, UnflattenedEvent.flatten,
          inlines_to_events, wrapEvents, Tag.to_end,
          ih1 ins2 (by simp at h; omega), ih1 rest (by simp at h; omega)]
      | .Strong ins2 :: rest =>
        simp [inlines_unfl, flattenList, UnflattenedEvent.flatten,
          inlines_to_events, wrapEvents, Tag.to_end,
          ih1 ins2 (by simp at h; omega), ih1 rest (by simp at h; omega)]
      | .Strikethrough ins2 :: rest =>
        simp [inlines_unfl, flattenList, UnflattenedEvent.flatten,
          inlines_to_events, wrapEvents, Tag.to_end,
          ih1 ins2 (by simp at h; omega), ih1 rest (by simp at h; omega)]
      | .Link lt url title id ct :: rest =>
        simp [inlines_unfl, flattenList, UnflattenedEvent.flatten,
          inlines_to_events, wrapEvents, Tag.to_end,
          ih1 ct (by simp at h; omega), ih1 rest (by simp at h; omega)]
      | .Image lt url title id desc :: rest =>
        simp [inlines_unfl, flattenList, UnflattenedEvent.flatten,
          inlines_to_events, wrapEvents, Tag.to_end,
          ih1 desc (by simp at h; omega), ih1 rest (by simp at h; omega)]
    have H4 : ∀ items : List ListItem, sizeOf items ≤ n + 1 →
        flattenList (items_unfl items) =
          items.flatMap fun it =>
            wrapEvents .Item (blocks_to_events it.blocks) := by
      intro items h
      match items with
      | [] => simp [items_unfl, flattenList]
      | .mk blocks :: rest =>
        simp [items_unfl, flattenList, UnflattenedEvent.flatten,
          wrapEvents, Tag.to_end, ListItem.blocks,
          ih3 blocks (by simp at h; omega), ih4 rest (by simp at h; omega)]
    have H5 : ∀ items : List ListItem, sizeOf items ≤ n + 1 →
        flattenList (list_children_unfl items) =
          list_items_to_events (items.length = 1) items := by
      intro items h
      match items with
      | [.mk [Block.Paragraph p]] =>
        simp [list_children_unfl, flattenList, UnflattenedEvent.flatten,
          list_items_to_events, wrapEvents, Tag.to_end,
          H1 p (by simp at h; omega)]
      | [] => simp [list_children_unfl, items_unfl, flattenList,
          list_items_to_events]
      | [.mk []] =>
        simp only [list_children_unfl]
        rw [H4 _ h, list_items_to_events_single_not_para _ _
          (by intro q hq; simp at hq)]
        simp
      | [.mk [Block.List l]] =>
        simp only [list_children_unfl]
        rw [H4 _ h, list_items_to_events_single_not_para _ _
          (by intro q hq; simp at hq)]
        simp
      | [.mk [Block.Heading a b]] =>
        simp only [list_children_unfl]
        rw [H4 _ h, list_items_to_events_single_not_para _ _
          (by intro q hq; simp at hq)]
        simp
      | [.mk [Block.CodeBlock a b]] =>
        simp only [list_children_unfl]
        rw [H4 _ h, list_items_to_events_single_not_para _ _
          (by intro q hq; simp at hq)]
        simp
      | [.mk [Block.BlockQuote a b]] =>
        simp only [list_children_unfl]
        rw [H4 _ h, list_items_to_events_single_not_para _ _
          (by intro q hq; simp at hq)]
        simp
      | [.mk [Block.Table a b c]] =>
        simp only [list_children_unfl]
        rw [H4 _ h, list_items_to_events_single_not_para _ _
          (by intro q hq; simp at hq)]
        simp
      | [.mk [Block.Rule]] =>
        simp only [list_children_unfl]
        rw [H4 _ h, list_items_to_events_single_not_para _ _
          (by intro q hq; simp at hq)]
        simp
      | [.mk (b1 :: b2 :: bs)] =>
        simp only [list_children_unfl]
        rw [H4 _ h, list_items_to_events_single_not_para _ _
          (by intro q hq; simp at hq)]
        simp
      | it1 :: it2 :: rest =>
        simp only [list_children_unfl]
        rw [H4 _ h, list_items_to_events_not_single _ (by simp)]
    have H6 : ∀ cells : List (List Inline), sizeOf cells ≤ n + 1 →
        flattenList (cells_unfl cells) = table_cells_to_events cells := by
      intro cells h
      match cells with
      | [] => simp [cells_unfl, flattenList, table_cells_to_events]
      | cell :: rest =>
        simp [cells_unfl, flattenList, UnflattenedEvent.flatten,
          table_cells_to_events, wrapEvents, Tag.to_end,
          ih1 cell (by simp at h; omega), ih6 rest (by simp at h; omega)]
    have H7 : ∀ rows : List (List (List Inline)), sizeOf rows ≤ n + 1 →
        flattenList (rows_unfl rows) = table_rows_to_events rows := by
      intro rows h
      match rows with
      | [] => simp [rows_unfl, flattenList, table_rows_to_events]
      | row :: rest =>
        simp [rows_unfl, flattenList, UnflattenedEvent.flatten,
          table_rows_to_events, wrapEvents, Tag.to_end,
          ih6 row (by simp at h; omega), ih7 rest (by simp at h; omega)]
    have H2 : ∀ b : Block, sizeOf b ≤ n + 1 →
        (block_unfl b).flatten = block_to_events b := by
      intro b h
      match b with
      | .Paragraph p =>
        simp [block_unfl, UnflattenedEvent.flatten, block_to_events,
          wrapEvents, Tag.to_end, H1 p (by simp at h; omega)]
      | .List items =>
        simp [block_unfl, UnflattenedEvent.flatten, block_to_events,
          wrapEvents, Tag.to_end, ih5 items (by simp at h; omega)]
      | .Heading level p =>
        simp [block_unfl, UnflattenedEvent.flatten, block_to_events,
          wrapEvents, Tag.to_end, H1 p (by simp at h; omega)]
      | .CodeBlock kind code =>
        simp [block_unfl, UnflattenedEvent.flatten, flattenList,
          block_to_events, wrapEvents, Tag.to_end]
      | .BlockQuote kind blocks =>
        simp [block_unfl, UnflattenedEvent.flatten, block_to_events,
          wrapEvents, Tag.to_end, ih3 blocks (by simp at h; omega)]
      | .Table a headers rows =>
        simp [block_unfl, UnflattenedEvent.flatten, flattenList,
          block_to_events, wrapEvents, Tag.to_end,
          ih6 headers (by simp at h; omega), ih7 rows (by simp at h; omega)]
      | .Rule =>
        simp [block_unfl, UnflattenedEvent.flatten, block_to_events]
    have H3 : ∀ bs : List Block, sizeOf bs ≤ n + 1 →
        flattenList (blocks_unfl bs) = blocks_to_events bs := by
      intro bs h
      match bs with
      | [] => simp [blocks_unfl, flattenList, blocks_to_events]
      | b :: rest =>
        simp [blocks_unfl, flattenList, blocks_to_events,
          H2 b (by simp at h; omega), ih3 rest (by simp at h; omega)]
    exact ⟨H1, H2, H3, H4, H5, H6, H7⟩

/-- Unfueled form: the serializer's output is the flattening of the
ghost tree. -/
theorem ast_to_events_eq_flatten (bs : List Block) :
    ast_to_events bs = flattenList (blocks_unfl bs) := by
  rw [ast_to_events,
    (flatten_unfl_aux (sizeOf bs)).2.2.1 bs (Nat.le_refl _)]

theorem string_append_empty (s : String) : s ++ "" = s := by
  cases s with
  | mk data =>
    show String.mk (data ++ []) = String.mk data
    rw [List.append_nil]

theorem codeblock_kind_roundtrip (kind : CodeBlockKind) :
    CodeBlockKind.from_pulldown_cmark kind.to_pulldown_cmark = kind := by
  cases kind <;> rfl

/-- The block-level loop maps ghost inline events (with no top-level
image) to a single flushed paragraph. -/
theorem astGo_inlines_unfl_aux (n : Nat) :
    ∀ (ins : List Inline) (complete : List Block) (spans : List Inline),
      sizeOf ins ≤ n → ins.all inline_not_image = true →
      astGo (inlines_unfl ins) complete spans =
        .ok (complete ++ flushP (spans ++ ins)) := by
  induction n with
  | zero =>
    intro ins complete spans h himg
    cases ins with
    | nil => cases spans <;> simp [inlines_unfl, astGo, flushP]
    | cons i rest => simp at h
  | succ n ih =>
    intro ins complete spans h himg
    match ins with
    | [] => cases spans <;> simp [inlines_unfl, astGo, flushP]
    | .Text s :: rest =>
      simp only [List.all_cons, Bool.and_eq_true] at himg
      have step : astGo (inlines_unfl (.Text s :: rest)) complete spans =
          astGo (inlines_unfl rest) complete (spans ++ [.Text s]) := by
        simp [inlines_unfl, astGo, is_inline, astDispatch]
      rw [step, ih rest complete _ (by simp at h; omega) himg.2]
      simp [List.append_assoc]
    | .Code s :: rest =>
      simp only [List.all_cons, Bool.and_eq_true] at himg
      have step : astGo (inlines_unfl (.Code s :: rest)) complete spans =
          astGo (inlines_unfl rest) complete (spans ++ [.Code s]) := by
        simp [inlines_unfl, astGo, is_inline, astDispatch]
      rw [step, ih rest complete _ (by simp at h; omega) himg.2]
      simp [List.append_assoc]
    | .SoftBreak :: rest =>
      simp only [List.all_cons, Bool.and_eq_true] at himg
      have step : astGo (inlines_unfl (.SoftBreak :: rest)) complete spans =
          astGo (inlines_unfl rest) complete (spans ++ [.SoftBreak]) := by
        simp [inlines_unfl, astGo, is_inline, astDispatch]
      rw [step, ih rest complete _ (by simp at h; omega) himg.2]
      simp [List.append_assoc]
    | .HardBreak :: rest =>
      simp only [List.all_cons, Bool.and_eq_true] at himg
      have step : astGo (inlines_unfl (.HardBreak :: rest)) complete spans =
          astGo (inlines_unfl rest) complete (spans ++ [.HardBreak]) := by
        simp [inlines_unfl, astGo, is_inline, astDispatch]
      rw [step, ih rest complete _ (by simp at h; omega) himg.2]
      simp [List.append_assoc]
    | .Emphasis ins2 :: rest =>
      simp only [List.all_cons, Bool.and_eq_true] at himg
      have step : astGo (inlines_unfl (.Emphasis ins2 :: rest)) complete
          spans =
          astGo (inlines_unfl rest) complete (spans ++ [.Emphasis ins2]) := by
        simp [inlines_unfl, astGo, is_inline, astDispatch,
          unwrap_text_unfl ins2]
      rw [step, ih rest complete _ (by simp at h; omega) himg.2]
      simp [List.append_assoc]
    | .Strong ins2 :: rest =>
      simp only [List.all_cons, Bool.and_eq_true] at himg
      have step : astGo (inlines_unfl (.Strong ins2 :: rest)) complete
          spans =
          astGo (inlines_unfl rest) complete (spans ++ [.Strong ins2]) := by
        simp [inlines_unfl, astGo, is_inline, astDispatch,
          unwrap_text_unfl ins2]
      rw [step, ih rest complete _ (by simp at h; omega) himg.2]
      simp [List.append_assoc]
    | .Strikethrough ins2 :: rest =>
      simp only [List.all_cons, Bool.and_eq_true] at himg
      have step : astGo (inlines_unfl (.Strikethrough ins2 :: rest))
          complete spans =
          astGo (inlines_unfl rest) complete
            (spans ++ [.Strikethrough ins2]) := by
        simp [inlines_unfl, astGo, is_inline, astDispatch,
          unwrap_text_unfl ins2]
      rw [step, ih rest complete _ (by simp at h; omega) himg.2]
      simp [List.append_assoc]
    | .Link lt url title id ct :: rest =>
      simp only [List.all_cons, Bool.and_eq_true] at himg
      have step : astGo (inlines_unfl (.Link lt url title id ct :: rest))
          complete spans =
          astGo (inlines_unfl rest) complete
            (spans ++ [.Link lt url title id ct]) := by
        simp [inlines_unfl, astGo, is_inline, astDispatch,
          unwrap_text_unfl ct]
      rw [step, ih rest complete _ (by simp at h; omega) himg.2]
      simp [List.append_assoc]
    | .Image lt url title id desc :: rest =>
      simp [inline_not_image] at himg

/-- Unfueled form of the inline-level loop lemma. -/
theorem astGo_inlines_unfl (ins : List Inline) (complete : List Block)
    (spans : List Inline) (himg : ins.all inline_not_image = true) :
    astGo (inlines_unfl ins) complete spans =
      .ok (complete ++ flushP (spans ++ ins)) :=
  astGo_inlines_unfl_aux (sizeOf ins) ins complete spans (Nat.le_refl _) himg

/-- The builder maps the ghost trees of a roundtrip-safe AST back to that
AST (fuel-bounded strong induction over the mutual AST structure). -/
theorem build_unfl_aux (n : Nat) :
    (∀ (bs : List Block) (complete : List Block) (spans : List Inline),
      sizeOf bs ≤ n → rt_safe_blocks bs = true →
      astGo (blocks_unfl bs) complete spans =
        .ok ((complete ++ flushP spans) ++ bs)) ∧
    (∀ items : List ListItem, sizeOf items ≤ n →
      rt_safe_items items = true →
      build_list_items (items_unfl items) = .ok items) ∧
    (∀ items : List ListItem, sizeOf items ≤ n →
      rt_safe_items items = true → single_para_guard items = true →
      build_list_items (list_children_unfl items) = .ok items) ∧
    (∀ cells : List (List Inline), sizeOf cells ≤ n →
      build_table_cells (cells_unfl cells) = .ok cells) ∧
    (∀ rows : List (List (List Inline)), sizeOf rows ≤ n →
      build_table_rows (rows_unfl rows) = .ok rows) := by
  induction n with
  | zero =>
    refine ⟨?_, ?_, ?_, ?_, ?_⟩
    · intro bs complete spans h hs
      cases bs with
      | nil => cases spans <;> simp [blocks_unfl, astGo, flushP]
      | cons b rest => simp at h
    · intro items h hs
      cases items with
      | nil => simp [items_unfl, build_list_items]
      | cons it rest => simp at h
    · intro items h hs hg
      cases items with
      | nil => simp [list_children_unfl, items_unfl, build_list_items]
      | cons it rest => simp at h
    · intro cells h
      cases cells with
      | nil => simp [cells_unfl, build_table_cells]
      | cons c rest => simp at h
    · intro rows h
      cases rows with
      | nil => simp [rows_unfl, build_table_rows]
      | cons r rest => simp at h
  | succ n ih =>
    obtain ⟨ih1, ih2, ih3, ih4, ih5⟩ := ih
    have HB1 : ∀ (bs : List Block) (complete : List Block)
        (spans : List Inline), sizeOf bs ≤ n + 1 →
        rt_safe_blocks bs = true →
        astGo (blocks_unfl bs) complete spans =
          .ok ((complete ++ flushP spans) ++ bs) := by
      intro bs complete spans h hs
      match bs with
      | [] => cases spans <;> simp [blocks_unfl, astGo, flushP]
      | .Paragraph p :: rest =>
        simp only [rt_safe_blocks, rt_safe_block, Bool.and_eq_true] at hs
        have hp : p.isEmpty = false := by
          cases hq : p.isEmpty <;> simp_all
        have step : astGo (blocks_unfl (Block.Paragraph p :: rest))
            complete spans =
            astGo (blocks_unfl rest) (complete ++ flushP spans) p := by
          cases spans <;>
            simp [blocks_unfl, block_unfl, astGo, is_inline, astDispatch,
              unwrap_text_unfl p, flushP]
        rw [step, ih1 rest _ p (by simp at h; omega) hs.2]
        simp [flushP, hp]
      | .List items :: rest =>
        simp only [rt_safe_blocks, rt_safe_block, Bool.and_eq_true] at hs
        have hitems : build_list_items (list_children_unfl items) =
            .ok items :=
          ih3 items (by simp at h; omega) hs.1.1 hs.1.2
        have step : astGo (blocks_unfl (Block.List items :: rest))
            complete spans =
            astGo (blocks_unfl rest)
              ((complete ++ flushP spans) ++ [Block.List items]) [] := by
          cases spans <;>
            simp [blocks_unfl, block_unfl, astGo, is_inline, astDispatch,
              hitems, flushP]
        rw [step, ih1 rest _ [] (by simp at h; omega) hs.2]
        simp [flushP]
      | .Heading level p :: rest =>
        simp only [rt_safe_blocks, rt_safe_block, Bool.and_eq_true] at hs
        have step : astGo (blocks_unfl (Block.Heading level p :: rest))
            complete spans =
            astGo (blocks_unfl rest)
              ((complete ++ flushP spans) ++ [Block.Heading level p]) [] := by
          cases spans <;>
            simp [blocks_unfl, block_unfl, astGo, is_inline, astDispatch,
              unwrap_text_unfl p, flushP]
        rw [step, ih1 rest _ [] (by simp at h; omega) hs.2]
        simp [flushP]
      | .CodeBlock kind code :: rest =>
        simp only [rt_safe_blocks, rt_safe_block, Bool.and_eq_true] at hs
        have step : astGo (blocks_unfl (Block.CodeBlock kind code :: rest))
            complete spans =
            astGo (blocks_unfl rest)
              ((complete ++ flushP spans) ++ [Block.CodeBlock kind code])
              [] := by
          cases spans <;>
            simp [blocks_unfl, block_unfl, astGo, is_inline, astDispatch,
              unwrap_text, unwrapGo, text_to_string, string_append_empty,
              codeblock_kind_roundtrip, flushP]
        rw [step, ih1 rest _ [] (by simp at h; omega) hs.2]
        simp [flushP]
      | .BlockQuote kind blocks :: rest =>
        simp only [rt_safe_blocks, rt_safe_block, Bool.and_eq_true] at hs
        have hbq : ast_events_to_ast (blocks_unfl blocks) = .ok blocks := by
          rw [ast_events_to_ast,
            ih1 blocks [] [] (by simp at h; omega) hs.1]
          simp [flushP]
        have step : astGo
            (blocks_unfl (Block.BlockQuote kind blocks :: rest))
            complete spans =
            astGo (blocks_unfl rest)
              ((complete ++ flushP spans) ++
                [Block.BlockQuote kind blocks]) [] := by
          cases spans <;>
            simp [blocks_unfl, block_unfl, astGo, is_inline, astDispatch,
              hbq, flushP]
        rw [step, ih1 rest _ [] (by simp at h; omega) hs.2]
        simp [flushP]
      | .Table a headers rows :: rest =>
        simp only [rt_safe_blocks, rt_safe_block, Bool.and_eq_true] at hs
        have hc : build_table_cells (cells_unfl headers) = .ok headers :=
          ih4 headers (by simp at h; omega)
        have hr : build_table_rows (rows_unfl rows) = .ok rows :=
          ih5 rows (by simp at h; omega)
        have step : astGo (blocks_unfl (Block.Table a headers rows :: rest))
            complete spans =
            astGo (blocks_unfl rest)
              ((complete ++ flushP spans) ++
                [Block.Table a headers rows]) [] := by
          cases spans <;>
            simp [blocks_unfl, block_unfl, astGo, is_inline, astDispatch,
              hc, hr, flushP]
        rw [step, ih1 rest _ [] (by simp at h; omega) hs.2]
        simp [flushP]
      | .Rule :: rest =>
        simp only [rt_safe_blocks, rt_safe_block, Bool.and_eq_true] at hs
        have step : astGo (blocks_unfl (Block.Rule :: rest))
            complete spans =
            astGo (blocks_unfl rest)
              ((complete ++ flushP spans) ++ [Block.Rule]) [] := by
          cases spans <;>
            simp [blocks_unfl, block_unfl, astGo, is_inline, astDispatch,
              flushP]
        rw [step, ih1 rest _ [] (by simp at h; omega) hs.2]
        simp [flushP]
    have HB2 : ∀ items : List ListItem, sizeOf items ≤ n + 1 →
        rt_safe_items items = true →
        build_list_items (items_unfl items) = .ok items := by
      intro items h hs
      match items with
      | [] => simp [items_unfl, build_list_items]
      | .mk blocks :: rest =>
        simp only [rt_safe_items, Bool.and_eq_true] at hs
        have hb : ast_events_to_ast (blocks_unfl blocks) = .ok blocks := by
          rw [ast_events_to_ast,
            ih1 blocks [] [] (by simp at h; omega) hs.1]
          simp [flushP]
        simp [items_unfl, build_list_items, hb,
          ih2 rest (by simp at h; omega) hs.2]
    have HB3 : ∀ items : List ListItem, sizeOf items ≤ n + 1 →
        rt_safe_items items = true → single_para_guard items = true →
        build_list_items (list_children_unfl items) = .ok items := by
      intro items h hs hg
      match items with
      | [.mk [Block.Paragraph p]] =>
        simp only [rt_safe_items, rt_safe_blocks, rt_safe_block,
          Bool.and_eq_true] at hs
        have hp : p.isEmpty = false := by
          cases hq : p.isEmpty <;> simp_all
        have hi : ast_events_to_ast (inlines_unfl p) =
            .ok [Block.Paragraph p] := by
          rw [ast_events_to_ast, astGo_inlines_unfl p [] []
            (by simpa [single_para_guard] using hg)]
          simp [flushP, hp]
        simp [list_children_unfl, build_list_items, hi]
      | [] => simp [list_children_unfl, items_unfl, build_list_items]
      | [.mk []] =>
        simp only [list_children_unfl]
        exact HB2 _ h hs
      | [.mk [Block.List l]] =>
        simp only [list_children_unfl]
        exact HB2 _ h hs
      | [.mk [Block.Heading a b]] =>
        simp only [list_children_unfl]
        exact HB2 _ h hs
      | [.mk [Block.CodeBlock a b]] =>
        simp only [list_children_unfl]
        exact HB2 _ h hs
      | [.mk [Block.BlockQuote a b]] =>
        simp only [list_children_unfl]
        exact HB2 _ h hs
      | [.mk [Block.Table a b c]] =>
        simp only [list_children_unfl]
        exact HB2 _ h hs
      | [.mk [Block.Rule]] =>
        simp only [list_children_unfl]
        exact HB2 _ h hs
      | [.mk (b1 :: b2 :: bl)] =>
        simp only [list_children_unfl]
        exact HB2 _ h hs
      | it1 :: it2 :: rest =>
        simp only [list_children_unfl]
        exact HB2 _ h hs
    have HB4 : ∀ cells : List (List Inline), sizeOf cells ≤ n + 1 →
        build_table_cells (cells_unfl cells) = .ok cells := by
      intro cells h
      match cells with
      | [] => simp [cells_unfl, build_table_cells]
      | cell :: rest =>
        simp [cells_unfl, build_table_cells, unwrap_text_unfl cell,
          ih4 rest (by simp at h; omega)]
    have HB5 : ∀ rows : List (List (List Inline)), sizeOf rows ≤ n + 1 →
        build_table_rows (rows_unfl rows) = .ok rows := by
      intro rows h
      match rows with
      | [] => simp [rows_unfl, build_table_rows]
      | row :: rest =>
        simp [rows_unfl, build_table_rows, ih4 row (by simp at h; omega),
          ih5 rest (by simp at h; omega)]
    exact ⟨HB1, HB2, HB3, HB4, HB5⟩

/-- Shared main lemma: the whole AST→Events→AST pipeline is the identity
on roundtrip-safe ASTs. -/
theorem roundtrip_main (bs : List Block) (h : rt_safe_blocks bs = true) :
    events_to_ast (ast_to_events bs) = .ok bs := by
  rw [events_to_ast, ast_to_events_eq_flatten]
  have hparse : parse_markdown_to_unflattened_events
      (flattenList (blocks_unfl bs)) = .ok (blocks_unfl bs) := by
    unfold parse_markdown_to_unflattened_events
    rw [runEvents_flattenList _ (wf_blocks_unfl bs)]
    rw [seqPushAll_root]
    simp [Unflattener.finish]
  rw [hparse]
  show ast_events_to_ast (blocks_unfl bs) = .ok bs
  rw [ast_events_to_ast,
    (build_unfl_aux (sizeOf bs)).1 bs [] [] (Nat.le_refl _) h]
  simp [flushP]

/-- **C2** (amended): AST→Events→AST is the identity on every block
sequence in which each `Paragraph` (recursively) is non-empty and the
sole paragraph of a single-item list has no top-level image. -/
theorem ast_events_ast_roundtrip (bs : List Block)
    (h : rt_safe_blocks bs = true) :
    events_to_ast (ast_to_events bs) = .ok bs :=
  roundtrip_main bs h

/-- Witness for C2 at a concrete AST exercising headings, paragraphs and
the single-item-list special case. -/
theorem ast_events_ast_roundtrip_witness :
    events_to_ast (ast_to_events
      [Block.Heading .H1 [.Text "t"], Block.Paragraph [.Text "a"],
        Block.List [.mk [Block.Paragraph [.Text "x"]]]]) =
      .ok [Block.Heading .H1 [.Text "t"], Block.Paragraph [.Text "a"],
        Block.List [.mk [Block.Paragraph [.Text "x"]]]] :=
  ast_events_ast_roundtrip
    [Block.Heading .H1 [.Text "t"], Block.Paragraph [.Text "a"],
      Block.List [.mk [Block.Paragraph [.Text "x"]]]]
    (by simp [rt_safe_blocks, rt_safe_block, rt_safe_items,
      single_para_guard, inline_not_image])

/-- **C2 counterexample**: the claim fails as stated — a `Paragraph` with
empty inline content serializes to a bare `Start(Paragraph)`/`End` pair,
which rebuilds to the empty block sequence, not to the original AST. -/
theorem ast_events_ast_counterexample :
    events_to_ast (ast_to_events [Block.Paragraph []]) = .ok [] ∧
    ((Except.ok ([] : List Block) : Except String (List Block)) ≠
      Except.ok [Block.Paragraph ([] : List Inline)]) := by
  constructor
  · simp [ast_to_events, blocks_to_events, block_to_events,
      inlines_to_events, wrapEvents, Tag.to_end, events_to_ast,
      parse_markdown_to_unflattened_events, runEvents,
      Unflattener.handle_event, Unflattener.seqPush, Unflattener.finish,
      ast_events_to_ast, astGo, astDispatch, is_inline, unwrap_text,
      unwrapGo]
  · simp

/-- **C1** (amended): Events→AST→Events reproduces the event sequence
exactly for every well-formed event sequence in the serializer's image on
a roundtrip-safe AST (the shape the tokenizer produces for such
documents). -/
theorem serialize_build_roundtrip (E : List Event) (bs : List Block)
    (hE : E = ast_to_events bs) (h : rt_safe_blocks bs = true) :
    ∃ ast, events_to_ast E = .ok ast ∧ ast_to_events ast = E := by
  subst hE
  exact ⟨bs, roundtrip_main bs h, rfl⟩

/-- Witness for C1 at a concrete event sequence. -/
theorem serialize_build_roundtrip_witness :
    ∃ ast, events_to_ast (ast_to_events [Block.Paragraph [.Text "hi"]]) =
        .ok ast ∧
      ast_to_events ast = ast_to_events [Block.Paragraph [.Text "hi"]] :=
  serialize_build_roundtrip _ [Block.Paragraph [.Text "hi"]] rfl
    (by simp [rt_safe_blocks, rt_safe_block])

/-- **C1 counterexample**: the claim fails over all well-formed event
sequences — `[Start(Paragraph), End(Paragraph)]` is correctly paired with
recognized tags (it is the flattening of a well-formed tree), yet
building and re-serializing yields the empty sequence, not the input. -/
theorem serialize_build_counterexample :
    wfList [UnflattenedEvent.Nested .Paragraph []] = true ∧
    flattenList [UnflattenedEvent.Nested .Paragraph []] =
      [Event.Start .Paragraph, Event.End .Paragraph] ∧
    events_to_ast [Event.Start .Paragraph, Event.End .Paragraph] =
      .ok [] ∧
    ast_to_events [] ≠ [Event.Start .Paragraph, Event.End .Paragraph] := by
  refine ⟨by simp [wfList, UnflattenedEvent.wf], ?_, ?_, ?_⟩
  · simp [flattenList, UnflattenedEvent.flatten, Tag.to_end]
  · simp [events_to_ast, parse_markdown_to_unflattened_events, runEvents,
      Unflattener.handle_event, Unflattener.seqPush, Unflattener.finish,
      Tag.to_end, ast_events_to_ast, astGo, astDispatch, is_inline,
      unwrap_text, unwrapGo]
  · simp [ast_to_events, blocks_to_events]

/-! ## Claim C10: every built `Paragraph` has non-empty inlines -/

mutual
/-- Every `Paragraph` reachable inside the block has non-empty inline
content. -/
def paras_nonempty_block : Block → Bool
  | .Paragraph inlines => !inlines.isEmpty
  | .List items => paras_nonempty_items items
  | .Heading _ _ => true
  | .CodeBlock _ _ => true
  | .BlockQuote _ blocks => paras_nonempty_blocks blocks
  | .Table _ _ _ => true
  | .Rule => true
termination_by b => sizeOf b

def paras_nonempty_items : List ListItem → Bool
  | [] => true
  | .mk blocks :: rest =>
    paras_nonempty_blocks blocks && paras_nonempty_items rest
termination_by items => sizeOf items

def paras_nonempty_blocks : List Block → Bool
  | [] => true
  | b :: rest => paras_nonempty_block b && paras_nonempty_blocks rest
termination_by bs => sizeOf bs
end

theorem paras_nonempty_blocks_append (a b : List Block) :
    paras_nonempty_blocks (a ++ b) =
      (paras_nonempty_blocks a && paras_nonempty_blocks b) := by
  induction a with
  | nil => simp [paras_nonempty_blocks]
  | cons x rest ih =>
    simp [paras_nonempty_blocks, ih, Bool.and_assoc]

/-- Invariant of the builder loop: starting from an accumulator whose
paragraphs are all non-empty, every successful result has only non-empty
paragraphs (fuel-bounded strong induction over the loop's recursion). -/
theorem paras_nonempty_aux (n : Nat) :
    (∀ (events : List UnflattenedEvent) (complete : List Block)
        (spans : List Inline) (blocks : List Block),
      sizeOf events ≤ n → astGo events complete spans = .ok blocks →
      paras_nonempty_blocks complete = true →
      paras_nonempty_blocks blocks = true) ∧
    (∀ (event : UnflattenedEvent) (rest : List UnflattenedEvent)
        (complete : List Block) (spans : List Inline)
        (blocks : List Block),
      sizeOf event + sizeOf rest ≤ n →
      astDispatch event rest complete spans = .ok blocks →
      paras_nonempty_blocks complete = true →
      paras_nonempty_blocks blocks = true) ∧
    (∀ (events : List UnflattenedEvent) (items : List ListItem),
      sizeOf events ≤ n → build_list_items events = .ok items →
      paras_nonempty_items items = true) := by
  induction n with
  | zero =>
    refine ⟨?_, ?_, ?_⟩
    · intro events complete spans blocks hsz
      cases events <;> simp at hsz
    · intro event rest complete spans blocks hsz
      cases event <;> simp at hsz
    · intro events items hsz
      cases events <;> simp at hsz
  | succ n ih =>
    obtain ⟨ih1, ih2, ih3⟩ := ih
    have HD : ∀ (event : UnflattenedEvent) (rest : List UnflattenedEvent)
        (complete : List Block) (spans : List Inline)
        (blocks : List Block),
        sizeOf event + sizeOf rest ≤ n + 1 →
        astDispatch event rest complete spans = .ok blocks →
        paras_nonempty_blocks complete = true →
        paras_nonempty_blocks blocks = true := by
      intro event rest complete spans blocks hsz hok hc
      match event with
      | .Atomic (.Start t) => simp [astDispatch] at hok
      | .Atomic (.End t) => simp [astDispatch] at hok
      | .Atomic (.Text s) =>
        simp only [astDispatch] at hok
        exact ih1 rest _ _ _ (by simp at hsz; omega) hok hc
      | .Atomic (.Code s) =>
        simp only [astDispatch] at hok
        exact ih1 rest _ _ _ (by simp at hsz; omega) hok hc
      | .Atomic .SoftBreak =>
        simp only [astDispatch] at hok
        exact ih1 rest _ _ _ (by simp at hsz; omega) hok hc
      | .Atomic .HardBreak =>
        simp only [astDispatch] at hok
        exact ih1 rest _ _ _ (by simp at hsz; omega) hok hc
      | .Atomic (.Html s) => simp [astDispatch] at hok
      | .Atomic (.InlineHtml s) => simp [astDispatch] at hok
      | .Atomic .Rule =>
        simp only [astDispatch] at hok
        refine ih1 rest _ _ _ (by simp at hsz; omega) hok ?_
        simp [paras_nonempty_blocks_append, paras_nonempty_blocks,
          paras_nonempty_block, hc]
      | .Atomic (.TaskListMarker b) => simp [astDispatch] at hok
      | .Atomic (.FootnoteReference s) => simp [astDispatch] at hok
      | .Atomic (.InlineMath s) => simp [astDispatch] at hok
      | .Atomic (.DisplayMath s) => simp [astDispatch] at hok
      | .Nested .Emphasis children =>
        simp only [astDispatch] at hok
        cases hu : unwrap_text children with
        | error m => rw [hu] at hok; simp at hok
        | ok ins =>
          rw [hu] at hok
          simp only [] at hok
          exact ih1 rest _ _ _ (by simp at hsz; omega) hok hc
      | .Nested .Strong children =>
        simp only [astDispatch] at hok
        cases hu : unwrap_text children with
        | error m => rw [hu] at hok; simp at hok
        | ok ins =>
          rw [hu] at hok
          simp only [] at hok
          exact ih1 rest _ _ _ (by simp at hsz; omega) hok hc
      | .Nested .Strikethrough children =>
        simp only [astDispatch] at hok
        cases hu : unwrap_text children with
        | error m => rw [hu] at hok; simp at hok
        | ok ins =>
          rw [hu] at hok
          simp only [] at hok
          exact ih1 rest _ _ _ (by simp at hsz; omega) hok hc
      | .Nested (.Link lt url title id) children =>
        simp only [astDispatch] at hok
        cases hu : unwrap_text children with
        | error m => rw [hu] at hok; simp at hok
        | ok ins =>
          rw [hu] at hok
          simp only [] at hok
          exact ih1 rest _ _ _ (by simp at hsz; omega) hok hc
      | .Nested (.Heading level i cl at_) children =>
        simp only [astDispatch] at hok
        cases hu : unwrap_text children with
        | error m => rw [hu] at hok; simp at hok
        | ok ins =>
          rw [hu] at hok
          simp only [] at hok
          refine ih1 rest _ _ _ (by simp at hsz; omega) hok ?_
          simp [paras_nonempty_blocks_append, paras_nonempty_blocks,
            paras_nonempty_block, hc]
      | .Nested .Paragraph children =>
        simp only [astDispatch] at hok
        cases hu : unwrap_text children with
        | error m => rw [hu] at hok; simp at hok
        | ok ins =>
          rw [hu] at hok
          simp only [] at hok
          exact ih1 rest _ _ _ (by simp at hsz; omega) hok hc
      | .Nested (.List start) children =>
        simp only [astDispatch] at hok
        cases hl : build_list_items children with
        | error m => rw [hl] at hok; simp at hok
        | ok items =>
          rw [hl] at hok
          simp only [] at hok
          have hitems : paras_nonempty_items items = true :=
            ih3 children items (by simp at hsz; omega) hl
          refine ih1 rest _ _ _ (by simp at hsz; omega) hok ?_
          simp [paras_nonempty_blocks_append, paras_nonempty_blocks,
            paras_nonempty_block, hc, hitems]
      | .Nested .Item children =>
        simp only [astDispatch] at hok
        cases he : ast_events_to_ast children with
        | error m => rw [he] at hok; simp at hok
        | ok bl =>
          rw [he] at hok
          simp only [] at hok
          have hbl : paras_nonempty_blocks bl = true := by
            rw [ast_events_to_ast] at he
            exact ih1 children [] [] bl (by simp at hsz; omega) he
              (by simp [paras_nonempty_blocks])
          refine ih1 rest _ _ _ (by simp at hsz; omega) hok ?_
          simp [paras_nonempty_blocks_append, hc, hbl]
      | .Nested (.CodeBlock kind) children =>
        simp only [astDispatch] at hok
        cases hu : unwrap_text children with
        | error m => rw [hu] at hok; simp at hok
        | ok ins =>
          rw [hu] at hok
          simp only [] at hok
          cases ht : text_to_string ins with
          | error m => rw [ht] at hok; simp at hok
          | ok code =>
            rw [ht] at hok
            simp only [] at hok
            refine ih1 rest _ _ _ (by simp at hsz; omega) hok ?_
            simp [paras_nonempty_blocks_append, paras_nonempty_blocks,
              paras_nonempty_block, hc]
      | .Nested (.BlockQuote kind) children =>
        simp only [astDispatch] at hok
        cases he : ast_events_to_ast children with
        | error m => rw [he] at hok; simp at hok
        | ok bl =>
          rw [he] at hok
          simp only [] at hok
          have hbl : paras_nonempty_blocks bl = true := by
            rw [ast_events_to_ast] at he
            exact ih1 children [] [] bl (by simp at hsz; omega) he
              (by simp [paras_nonempty_blocks])
          refine ih1 rest _ _ _ (by simp at hsz; omega) hok ?_
          simp [paras_nonempty_blocks_append, paras_nonempty_blocks,
            paras_nonempty_block, hc, hbl]
      | .Nested (.Table alignments) children =>
        match children, hok with
        | [], hok => simp [astDispatch] at hok
        | .Atomic e :: crest, hok => simp [astDispatch] at hok
        | .Nested htag hevents :: crest, hok =>
          match htag, hok with
          | .TableHead, hok =>
            simp only [astDispatch] at hok
            cases hcell : build_table_cells hevents with
            | error m => rw [hcell] at hok; simp at hok
            | ok headers =>
              rw [hcell] at hok
              simp only [] at hok
              cases hrow : build_table_rows crest with
              | error m => rw [hrow] at hok; simp at hok
              | ok rows =>
                rw [hrow] at hok
                simp only [] at hok
                refine ih1 rest _ _ _ (by simp at hsz; omega) hok ?_
                simp [paras_nonempty_blocks_append, paras_nonempty_blocks,
                  paras_nonempty_block, hc]
          | .Paragraph, hok => simp [astDispatch] at hok
          | .Heading a b c d, hok => simp [astDispatch] at hok
          | .BlockQuote k, hok => simp [astDispatch] at hok
          | .CodeBlock k, hok => simp [astDispatch] at hok
          | .HtmlBlock, hok => simp [astDispatch] at hok
          | .List s, hok => simp [astDispatch] at hok
          | .Item, hok => simp [astDispatch] at hok
          | .FootnoteDefinition l, hok => simp [astDispatch] at hok
          | .Table a, hok => simp [astDispatch] at hok
          | .TableRow, hok => simp [astDispatch] at hok
          | .TableCell, hok => simp [astDispatch] at hok
          | .Emphasis, hok => simp [astDispatch] at hok
          | .Strong, hok => simp [astDispatch] at hok
          | .Strikethrough, hok => simp [astDispatch] at hok
          | .Link a b c d, hok => simp [astDispatch] at hok
          | .Image a b c d, hok => simp [astDispatch] at hok
          | .MetadataBlock k, hok => simp [astDispatch] at hok
      | .Nested .TableHead children => simp [astDispatch] at hok
      | .Nested .TableRow children => simp [astDispatch] at hok
      | .Nested .TableCell children => simp [astDispatch] at hok
      | .Nested .HtmlBlock children => simp [astDispatch] at hok
      | .Nested (.FootnoteDefinition l) children =>
        simp [astDispatch] at hok
      | .Nested (.Image lt url title id) children =>
        simp [astDispatch] at hok
      | .Nested (.MetadataBlock k) children => simp [astDispatch] at hok
    have HA : ∀ (events : List UnflattenedEvent) (complete : List Block)
        (spans : List Inline) (blocks : List Block),
        sizeOf events ≤ n + 1 → astGo events complete spans = .ok blocks →
        paras_nonempty_blocks complete = true →
        paras_nonempty_blocks blocks = true := by
      intro events complete spans blocks hsz hok hc
      match events with
      | [] =>
        cases spans with
        | nil =>
          simp [astGo] at hok
          rw [← hok]
          exact hc
        | cons s ss =>
          simp [astGo] at hok
          rw [← hok]
          simp [paras_nonempty_blocks_append, paras_nonempty_blocks,
            paras_nonempty_block, hc]
      | event :: rest =>
        simp only [astGo] at hok
        cases hinl : is_inline event with
        | error m => rw [hinl] at hok; simp at hok
        | ok inl =>
          rw [hinl] at hok
          simp only [] at hok
          have hsum : sizeOf event + sizeOf rest ≤ n + 1 := by
            simp at hsz; omega
          cases inl with
          | true =>
            simp only [Bool.not_true, Bool.false_and, Bool.false_eq_true,
              if_false] at hok
            exact HD event rest _ _ _ hsum hok hc
          | false =>
            cases spans with
            | nil =>
              simp only [Bool.not_false, List.isEmpty_nil, Bool.not_true,
                Bool.and_false, Bool.false_eq_true, if_false] at hok
              exact HD event rest _ _ _ hsum hok hc
            | cons s ss =>
              simp only [Bool.not_false, List.isEmpty_cons, Bool.not_false,
                Bool.and_true, Bool.true_and, if_true] at hok
              refine HD event rest _ _ _ hsum hok ?_
              simp [paras_nonempty_blocks_append, paras_nonempty_blocks,
                paras_nonempty_block, hc]
    have HL : ∀ (events : List UnflattenedEvent) (items : List ListItem),
        sizeOf events ≤ n + 1 → build_list_items events = .ok items →
        paras_nonempty_items items = true := by
      intro events items hsz hok
      match events with
      | [] =>
        simp [build_list_items] at hok
        rw [hok]
        simp [paras_nonempty_items]
      | .Nested .Item ievents :: rest =>
        simp only [build_list_items] at hok
        cases he : ast_events_to_ast ievents with
        | error m => rw [he] at hok; simp at hok
        | ok bl =>
          rw [he] at hok
          simp only [] at hok
          cases hr : build_list_items rest with
          | error m => rw [hr] at hok; simp at hok
          | ok items2 =>
            rw [hr] at hok
            simp only [] at hok
            have hbl : paras_nonempty_blocks bl = true := by
              rw [ast_events_to_ast] at he
              exact ih1 ievents [] [] bl (by simp at hsz; omega) he
                (by simp [paras_nonempty_blocks])
            have hrest : paras_nonempty_items items2 = true :=
              ih3 rest items2 (by simp at hsz; omega) hr
            cases hok
            simp [paras_nonempty_items, hbl, hrest]
      | .Atomic e :: rest => simp [build_list_items] at hok
      | .Nested .Paragraph c :: rest => simp [build_list_items] at hok
      | .Nested (.Heading a b cl d) c :: rest =>
        simp [build_list_items] at hok
      | .Nested (.BlockQuote k) c :: rest =>
        simp [build_list_items] at hok
      | .Nested (.CodeBlock k) c :: rest =>
        simp [build_list_items] at hok
      | .Nested .HtmlBlock c :: rest => simp [build_list_items] at hok
      | .Nested (.List s) c :: rest => simp [build_list_items] at hok
      | .Nested (.FootnoteDefinition l) c :: rest =>
        simp [build_list_items] at hok
      | .Nested (.Table a) c :: rest => simp [build_list_items] at hok
      | .Nested .TableHead c :: rest => simp [build_list_items] at hok
      | .Nested .TableRow c :: rest => simp [build_list_items] at hok
      | .Nested .TableCell c :: rest => simp [build_list_items] at hok
      | .Nested .Emphasis c :: rest => simp [build_list_items] at hok
      | .Nested .Strong c :: rest => simp [build_list_items] at hok
      | .Nested .Strikethrough c :: rest =>
        simp [build_list_items] at hok
      | .Nested (.Link a b cl d) c :: rest =>
        simp [build_list_items] at hok
      | .Nested (.Image a b cl d) c :: rest =>
        simp [build_list_items] at hok
      | .Nested (.MetadataBlock k) c :: rest =>
        simp [build_list_items] at hok
    exact ⟨HA, HD, HL⟩

/-- **C10**: every `Paragraph` appearing anywhere in a successful output
of `events_to_ast` — at the top level and recursively inside list items
and block quotes — has non-empty inline content. -/
theorem built_paragraphs_nonempty (events : List Event)
    (blocks : List Block) (h : events_to_ast events = .ok blocks) :
    paras_nonempty_blocks blocks = true := by
  rw [events_to_ast] at h
  cases hp : parse_markdown_to_unflattened_events events with
  | error m => rw [hp] at h; simp at h
  | ok unfl =>
    rw [hp] at h
    simp only [] at h
    rw [ast_events_to_ast] at h
    exact (paras_nonempty_aux (sizeOf unfl)).1 unfl [] [] blocks
      (Nat.le_refl _) h (by simp [paras_nonempty_blocks])

/-- Witness for C10 at a concrete event sequence. -/
theorem built_paragraphs_nonempty_witness :
    paras_nonempty_blocks
      [Block.Paragraph [.Text "hi"], Block.Rule] = true :=
  built_paragraphs_nonempty
    [.Start .Paragraph, .Text "hi", .End .Paragraph, .Rule]
    [Block.Paragraph [.Text "hi"], Block.Rule]
    (by simp [events_to_ast, parse_markdown_to_unflattened_events,
      runEvents, Unflattener.handle_event, Unflattener.seqPush,
      Unflattener.finish, Tag.to_end, ast_events_to_ast, astGo,
      astDispatch, is_inline, unwrap_text, unwrapGo])

end MarkdownAst
